import Mathlib

/-! A node-level model of `forward_list.hpp`.

The container is a sentinel `before_begin_` (a `node_base`) that owns, through a chain of
`std::unique_ptr<node>` links, the nodes of the list.  The model keeps the free store and
the list objects in one state `Heap T`:

* a heap node lives at an address `n : Nat`; a `unique_ptr<node>` or `node *` is an
  `Option Nat` (`none` is `nullptr`);
* a list object is named by a number `l`, its member `before_begin_.next` is `heads l`;
* a `node_base *` (what an iterator holds) is an `Option Loc`: null, the sentinel of a list,
  or a heap node;
* every function returns `none` where the C++ has undefined behaviour (a null or dangling
  pointer is dereferenced), where a loop runs out of fuel, or where the function is
  ill-formed and so cannot be instantiated.
-/

namespace forward_list

/-- The object a non-null `node_base *` points to: the member `before_begin_` of the list
object `l`, or the heap node at address `n`. -/
inductive Loc where
  | head (l : Nat)
  | node (n : Nat)
deriving DecidableEq

/-- `struct node : node_base { T value; }`, with `node_base::next` a `unique_ptr<node>`. -/
structure node (T : Type) where
  next : Option Nat
  value : T

/-- The state: the `before_begin_.next` link of every list object, the free store, and the
address the next `new` hands out (addresses are never reused). -/
structure Heap (T : Type) where
  heads : Nat → Option Nat
  nodes : Nat → Option (node T)
  brk : Nat

/-- Both `iterator` and `const_iterator`: a single field `node_`, null by default. -/
structure iterator where
  node_ : Option Loc
deriving DecidableEq

variable {T : Type}

/-- Point update of a map. -/
def upd {β : Type} (f : Nat → β) (a : Nat) (b : β) : Nat → β :=
  fun x => if x = a then b else f x

/-- Read `x->next` (the raw pointer held by the link); `none` when `x` is a dangling node. -/
def getNext (s : Heap T) : Loc → Option (Option Nat)
  | .head l => some (s.heads l)
  | .node n => (s.nodes n).map (fun c => c.next)

/-- Read the `value` member of the node at address `n`. -/
def value (s : Heap T) (n : Nat) : Option T :=
  (s.nodes n).map (fun c => c.value)

/-- Store a raw pointer into the link `x->next`, nothing else. -/
def setNext (s : Heap T) (x : Loc) (q : Option Nat) : Heap T :=
  match x with
  | .head l => { s with heads := upd s.heads l q }
  | .node n => { s with nodes := upd s.nodes n ((s.nodes n).map (fun c => { c with next := q })) }

/-- The allocation `std::make_unique<node>(args...)`: a new node with a null `next` at the
address `brk`; `v` is the value constructed from `args`. -/
def alloc (s : Heap T) (v : T) : Heap T :=
  { s with nodes := upd s.nodes s.brk (some ⟨none, v⟩), brk := s.brk + 1 }

/-- Release the storage of the node at address `n`. -/
def free (s : Heap T) (n : Nat) : Heap T :=
  { s with nodes := upd s.nodes n none }

/-- The expression `delete p` for a `node *`: the destructor of the node destroys its member
`next`, which deletes the node it owns, and so on down the chain; then the storage goes. -/
def destroy : Nat → Heap T → Option Nat → Option (Heap T)
  | _, s, none => some s
  | 0, _, some _ => none
  | fuel + 1, s, some n =>
    match s.nodes n with
    | none => none
    | some c =>
      match destroy fuel s c.next with
      | none => none
      | some s1 => some (free s1 n)

/-- The call `u.release()` on the link `x->next`: the link becomes null, the old pointer is
returned.  Also the effect of moving from the link (`std::move(x->next)` consumed by a
move constructor or move assignment). -/
def release (s : Heap T) (x : Loc) : Option (Heap T × Option Nat) :=
  match getNext s x with
  | none => none
  | some p => some (setNext s x none, p)

/-- The call `x->next.reset(p)`: store `p`, then delete the node the link owned before. -/
def reset (s : Heap T) (x : Loc) (p : Option Nat) : Option (Heap T) :=
  match getNext s x with
  | none => none
  | some old => destroy (s.brk + 1) (setNext s x p) old

/-- Source `before_begin()`: `iterator(&before_begin_)`. -/
def before_begin (l : Nat) : iterator := ⟨some (.head l)⟩

/-- Source `end()`: `return {};`, the default iterator. -/
def end_ : iterator := ⟨none⟩

/-- Source `access(i)`: the same pointer with `const` cast away. -/
def access (i : iterator) : iterator := ⟨i.node_⟩

/-- Source `std::next(it)`: a copy advanced by `operator++`, `node_ = node_->next.get()`. -/
def next (s : Heap T) (it : iterator) : Option iterator :=
  match it.node_ with
  | none => none
  | some x =>
    match getNext s x with
    | none => none
    | some q => some ⟨q.map Loc.node⟩

/-- Source `begin()`: `std::next(before_begin())`. -/
def begin (s : Heap T) (l : Nat) : Option iterator := next s (before_begin l)

/-- Source `operator*`: `static_cast<node_type *>(node_)->value`. -/
def deref (s : Heap T) (it : iterator) : Option T :=
  match it.node_ with
  | some (.node n) => value s n
  | _ => none

/-- Source `empty()`: `begin() == end()`. -/
def empty (s : Heap T) (l : Nat) : Option Bool :=
  (begin s l).map (fun b => decide (b = end_))

/-- Source `front()`: `*begin()`. -/
def front (s : Heap T) (l : Nat) : Option T :=
  match begin s l with
  | none => none
  | some b => deref s b

/-- The loop `for (it = ...; it != end(); ++it)` reading `*it` at every step. -/
def collect (s : Heap T) : Nat → iterator → Option (List T)
  | 0, _ => none
  | fuel + 1, it =>
    if it = end_ then some []
    else
      match deref s it with
      | none => none
      | some v =>
        match next s it with
        | none => none
        | some it1 =>
          match collect s fuel it1 with
          | none => none
          | some vs => some (v :: vs)

/-- Traversal of the list `l` from `begin()` to `end()`. -/
def toList (s : Heap T) (l : Nat) (fuel : Nat) : Option (List T) :=
  match begin s l with
  | none => none
  | some b => collect s fuel b

/-- Source `emplace_after(pos, args...)`; `v` is the value `args` construct. -/
def emplace_after (s : Heap T) (pos : iterator) (v : T) : Option (Heap T × iterator) :=
  match (access pos).node_ with
  | none => none
  | some i =>
    let n := s.brk
    let s1 := alloc s v
    match release s1 i with
    | none => none
    | some (s2, p) =>
      match reset s2 (.node n) p with
      | none => none
      | some s3 =>
        match reset s3 i (some n) with
        | none => none
        | some s4 =>
          match getNext s4 i with
          | none => none
          | some q => some (s4, ⟨q.map Loc.node⟩)

/-- Source `insert_after(pos, value)` (both the copying and the moving overload). -/
def insert_after (s : Heap T) (pos : iterator) (v : T) : Option (Heap T × iterator) :=
  emplace_after s pos v

/-- The implicit conversion from `iterator` to `T &` that the `return` statement of
`emplace_front` asks for; a `T &` is the address of the node that holds the value.  The
class `iterator` declares no conversion function (it has constructors, `operator*`,
`operator->`, `operator++` and the two comparisons only), and a `T &` does not bind to a
temporary, so there is no such conversion for any `T`. -/
def iterator_to_reference (_ : iterator) : Option Nat := none

/-- Source `emplace_front(args...)`, declared to return `T &`:
`return emplace_after(before_begin(), std::forward<Args>(args)...);` the operand of the
`return` is an `iterator` and has to be converted to `T &`.  Where the conversion does not
exist the function cannot be instantiated, and a call of it yields no run: `none`. -/
def emplace_front (s : Heap T) (l : Nat) (v : T) : Option (Heap T × Nat) :=
  match emplace_after s (before_begin l) v with
  | none => none
  | some (s1, it) =>
    match iterator_to_reference it with
    | none => none
    | some r => some (s1, r)

/-- Source `push_front(value)` (both overloads): `emplace_front(value);` -/
def push_front (s : Heap T) (l : Nat) (v : T) : Option (Heap T) :=
  (emplace_front s l v).map Prod.fst

/-- Source `erase_after(pos)`: `i.node_->next = std::move(i.node_->next->next)`. -/
def erase_after (s : Heap T) (pos : iterator) : Option (Heap T × iterator) :=
  match (access pos).node_ with
  | none => none
  | some i =>
    match getNext s i with
    | none => none
    | some none => none
    | some (some n) =>
      match release s (.node n) with
      | none => none
      | some (s1, r) =>
        match reset s1 i r with
        | none => none
        | some s2 =>
          match getNext s2 i with
          | none => none
          | some q => some (s2, ⟨q.map Loc.node⟩)

/-- Source `pop_front()`. -/
def pop_front (s : Heap T) (l : Nat) : Option (Heap T) :=
  (erase_after s (before_begin l)).map Prod.fst

/-- The loop of `erase_after(first, last)`:
`while (std::next(first) != last) i = erase_after(first);` started with `i`. -/
def erase_after_loop (first last : iterator) : Nat → Heap T → iterator → Option (Heap T × iterator)
  | 0, _, _ => none
  | fuel + 1, s, i =>
    match next s first with
    | none => none
    | some nx =>
      if nx ≠ last then
        match erase_after s first with
        | none => none
        | some (s1, i1) => erase_after_loop first last fuel s1 i1
      else some (s, i)

/-- Source `erase_after(first, last)`: `iterator i;` the loop, `return i;`. -/
def erase_after_range (fuel : Nat) (s : Heap T) (first last : iterator) :
    Option (Heap T × iterator) :=
  erase_after_loop first last fuel s ⟨none⟩

/-- The first loop of `resize`: `while (size && std::next(i) != end()) { --size; ++i; }`;
returns the remaining `size` and `i`. -/
def resize_walk (s : Heap T) : Nat → iterator → Option (Nat × iterator)
  | 0, i => some (0, i)
  | size + 1, i =>
    match next s i with
    | none => none
    | some nx => if nx ≠ end_ then resize_walk s size nx else some (size + 1, i)

/-- The loop `while (count--) i = emplace_after(i, args...);`. -/
def emplace_loop (v : T) : Nat → Heap T → iterator → Option (Heap T × iterator)
  | 0, s, i => some (s, i)
  | count + 1, s, i =>
    match emplace_after s i v with
    | none => none
    | some (s1, i1) => emplace_loop v count s1 i1

/-- Source `resize(size)`; the appended nodes are built by `emplace_after(i)` with no
argument, that is from the value-initialised `T()`, here `default`. -/
def resize [Inhabited T] (fuel : Nat) (s : Heap T) (l : Nat) (size : Nat) : Option (Heap T) :=
  match resize_walk s size (before_begin l) with
  | none => none
  | some (size1, i) =>
    match erase_after_range fuel s i end_ with
    | none => none
    | some (s1, _) => (emplace_loop default size1 s1 i).map Prod.fst

/-- Source `splice_after(pos, other, it)`, the single-node form.  The list objects are not
used by the body (`access` only casts), so they are not parameters. -/
def splice_after (s : Heap T) (pos it : iterator) : Option (Heap T × iterator) :=
  match (access it).node_, (access pos).node_ with
  | some from_, some to_ =>
    match release s from_ with
    | none => none
    | some (_, none) => none
    | some (s1, some n) =>
      match release s1 (.node n) with
      | none => none
      | some (s2, r) =>
        match reset s2 from_ r with
        | none => none
        | some s3 =>
          match release s3 to_ with
          | none => none
          | some (s4, t) =>
            match reset s4 (.node n) t with
            | none => none
            | some s5 =>
              match reset s5 to_ (some n) with
              | none => none
              | some s6 =>
                match next s6 ⟨some to_⟩ with
                | none => none
                | some r => some (s6, r)
  | _, _ => none

/-- The else branch of the range `splice_after`:
`while (std::next(first) != last) pos = splice_after(pos, other, first);` returns the
final state and `pos`. -/
def splice_after_general (first last : iterator) : Nat → Heap T → iterator → Option (Heap T × iterator)
  | 0, _, _ => none
  | fuel + 1, s, pos =>
    match next s first with
    | none => none
    | some nx =>
      if nx ≠ last then
        match splice_after s pos first with
        | none => none
        | some (s1, pos1) => splice_after_general first last fuel s1 pos1
      else some (s, pos)

/-- The then branch of the range `splice_after`:
`access(pos).node_->next = std::move(other.access(first).node_->next);` -/
def splice_after_end (s : Heap T) (pos first : iterator) : Option (Heap T × iterator) :=
  match (access pos).node_, (access first).node_ with
  | some p, some f =>
    match release s f with
    | none => none
    | some (s1, r) =>
      match reset s1 p r with
      | none => none
      | some s2 => some (s2, pos)
  | _, _ => none

/-- Source `splice_after(pos, other, first, last)`: the test `std::next(pos) == end()`
selects the branch, and `access(pos)` is returned. -/
def splice_after_range (fuel : Nat) (s : Heap T) (pos first last : iterator) :
    Option (Heap T × iterator) :=
  match next s pos with
  | none => none
  | some nx =>
    if nx = end_ then
      match splice_after_end s pos first with
      | none => none
      | some (s1, pos1) => some (s1, access pos1)
    else
      match splice_after_general first last fuel s pos with
      | none => none
      | some (s1, pos1) => some (s1, access pos1)

/-! ## What it means for the state to hold a list -/

/-- Following the links from `x->next` visits exactly the nodes `cells` (address and value,
in order) and then reaches the pointer `q`. -/
def Path (s : Heap T) : Loc → List (Nat × T) → Option Nat → Prop
  | x, [], q => getNext s x = some q
  | x, c :: rest, q =>
    getNext s x = some (some c.1) ∧ value s c.1 = some c.2 ∧ Path s (.node c.1) rest q

/-- The list object `l` owns exactly the nodes `cells`, in this order: the chain from the
sentinel ends in null, no node occurs twice, and every node has been allocated. -/
def IsList (s : Heap T) (l : Nat) (cells : List (Nat × T)) : Prop :=
  Path s (.head l) cells none ∧ (cells.map Prod.fst).Nodup ∧ ∀ c ∈ cells, c.1 < s.brk

/-- The objects whose links a path from `x` through `cells` reads: `x` and every node. -/
def locs (x : Loc) (cells : List (Nat × T)) : List Loc :=
  x :: cells.map (fun c => Loc.node c.1)

/-- The pointer a link holds when the path behind it visits `cells` and then reaches `q`. -/
def firstPtr (q : Option Nat) : List (Nat × T) → Option Nat
  | [] => q
  | c :: _ => some c.1

/-- The object the last of `cells` lives in, `x` itself when there is none. -/
def lastLoc (x : Loc) : List (Nat × T) → Loc
  | [] => x
  | c :: rest => lastLoc (.node c.1) rest

/-- The position in list `l` that references the last of the cells `pre`, a prefix of the
list; `before_begin()` when `pre` is empty. -/
def posAfter (l : Nat) (pre : List (Nat × T)) : iterator :=
  ⟨some (lastLoc (.head l) pre)⟩

/-- The position that references the first of the cells `post`, a suffix of a list;
`end()` when `post` is empty. -/
def posOf (post : List (Nat × T)) : iterator :=
  ⟨(firstPtr none post).map Loc.node⟩

instance decidablePath [DecidableEq T] (s : Heap T) :
    ∀ (x : Loc) (cells : List (Nat × T)) (q : Option Nat), Decidable (Path s x cells q)
  | x, [], q => inferInstanceAs (Decidable (getNext s x = some q))
  | x, c :: rest, q =>
    have := decidablePath s (.node c.1) rest q
    inferInstanceAs (Decidable (getNext s x = some (some c.1) ∧ value s c.1 = some c.2 ∧
      Path s (.node c.1) rest q))

instance decidableIsList [DecidableEq T] (s : Heap T) (l : Nat) (cells : List (Nat × T)) :
    Decidable (IsList s l cells) :=
  inferInstanceAs (Decidable (Path s (.head l) cells none ∧ (cells.map Prod.fst).Nodup ∧
    ∀ c ∈ cells, c.1 < s.brk))

/-! ## Scenarios and concrete states -/

/-- A run of `push_front` calls on the list `l`, one per value, in the order given. -/
def push_front_all (l : Nat) : List T → Heap T → Option (Heap T)
  | [], s => some s
  | v :: vs, s =>
    match push_front s l v with
    | none => none
    | some s1 => push_front_all l vs s1

/-- A concrete state: list `0` is `{1, 2, 3}` in the nodes `0, 1, 2`, list `1` is `{4}` in
the node `3`, every other list is empty. -/
def exHeap : Heap Nat where
  heads := fun l => if l = 0 then some 0 else if l = 1 then some 3 else none
  nodes := fun n =>
    if n = 0 then some ⟨some 1, 1⟩
    else if n = 1 then some ⟨some 2, 2⟩
    else if n = 2 then some ⟨none, 3⟩
    else if n = 3 then some ⟨none, 4⟩
    else none
  brk := 4

/-- A concrete state of `forward_list<bool>`: no node, every list empty. -/
def exHeapB : Heap Bool where
  heads := fun _ => none
  nodes := fun _ => none
  brk := 0

/-! ## The remaining operations of the source -/

/-- Source `splice_after(pos, other)`, for an lvalue or an rvalue `other`:
`splice_after(pos, other, other.before_begin(), other.end())`. -/
def splice_after_all (fuel : Nat) (s : Heap T) (pos : iterator) (other : Nat) :
    Option (Heap T × iterator) :=
  splice_after_range fuel s pos (before_begin other) end_

/-- Source `swap(other)`: `std::swap(before_begin_.next, other.before_begin_.next)`, which
exchanges the pointers the two links hold and deletes nothing. -/
def swap (s : Heap T) (l other : Nat) : Heap T :=
  setNext (setNext s (.head l) (s.heads other)) (.head other) (s.heads l)

/-- The list object `l` comes into existence: its member `before_begin_` is
default-initialised, so the link `before_begin_.next` is null. -/
def new_list (s : Heap T) (l : Nat) : Heap T :=
  { s with heads := upd s.heads l none }

/-- Source `forward_list(count, value)`, constructing the list object `l`:
`auto i = before_begin(); while (count--) i = emplace_after(i, value);` -/
def forward_list_count (s : Heap T) (l : Nat) (count : Nat) (v : T) : Option (Heap T) :=
  (emplace_loop v count (new_list s l) (before_begin l)).map Prod.fst

/-- The loop `for (It it = first; it != last; ++it) i = emplace_after(i, *it);` the input
range is given by the values `*it` it yields, in order. -/
def range_loop : List T → Heap T → iterator → Option (Heap T × iterator)
  | [], s, i => some (s, i)
  | v :: vs, s, i =>
    match emplace_after s i v with
    | none => none
    | some (s1, i1) => range_loop vs s1 i1

/-- Source `forward_list(first, last)`, constructing the list object `l`. -/
def forward_list_range (s : Heap T) (l : Nat) (vs : List T) : Option (Heap T) :=
  (range_loop vs (new_list s l) (before_begin l)).map Prod.fst

/-- Source `forward_list(std::initializer_list<T> init)`: delegates to
`forward_list(init.begin(), init.end())`. -/
def forward_list_init (s : Heap T) (l : Nat) (init : List T) : Option (Heap T) :=
  forward_list_range s l init

/-- Source `clear()`: `while (!empty()) pop_front();` also the destructor `~forward_list`. -/
def clear : Nat → Heap T → Nat → Option (Heap T)
  | 0, _, _ => none
  | fuel + 1, s, l =>
    match empty s l with
    | none => none
    | some true => some s
    | some false =>
      match pop_front s l with
      | none => none
      | some s1 => clear fuel s1 l

/-- Source `insert_after(pos, count, value)`:
`return splice_after(pos, forward_list(count, value));` the temporary list is the list
object `tmp`, destroyed once the return value has been computed. -/
def insert_after_count (fuel : Nat) (s : Heap T) (tmp : Nat) (pos : iterator) (count : Nat)
    (v : T) : Option (Heap T × iterator) :=
  match forward_list_count s tmp count v with
  | none => none
  | some s1 =>
    match splice_after_all fuel s1 pos tmp with
    | none => none
    | some (s2, r) =>
      match clear fuel s2 tmp with
      | none => none
      | some s3 => some (s3, r)

/-- Source `insert_after(pos, first, last)`:
`return splice_after(pos, forward_list(first, last));` with the temporary list `tmp`. -/
def insert_after_range (fuel : Nat) (s : Heap T) (tmp : Nat) (pos : iterator) (vs : List T) :
    Option (Heap T × iterator) :=
  match forward_list_range s tmp vs with
  | none => none
  | some s1 =>
    match splice_after_all fuel s1 pos tmp with
    | none => none
    | some (s2, r) =>
      match clear fuel s2 tmp with
      | none => none
      | some s3 => some (s3, r)

/-- Source `insert_after(pos, ilist)`: `insert_after(pos, ilist.begin(), ilist.end())`. -/
def insert_after_init (fuel : Nat) (s : Heap T) (tmp : Nat) (pos : iterator) (ilist : List T) :
    Option (Heap T × iterator) :=
  insert_after_range fuel s tmp pos ilist

/-- Source `resize(size, value)`, whose second parameter is declared `T const * value`: the
appended nodes are built by `emplace_after(i, value)`, that is from the pointer.  `P` is the
pointer type and `ctor p` is the `T` that the initialisation `value(p)` of a node yields
for an argument `p` of type `T const *`. -/
def resize_value {P : Type} (ctor : P → T) (fuel : Nat) (s : Heap T) (l : Nat) (size : Nat)
    (value : P) : Option (Heap T) :=
  match resize_walk s size (before_begin l) with
  | none => none
  | some (size1, i) =>
    match erase_after_range fuel s i end_ with
    | none => none
    | some (s1, _) => (emplace_loop (ctor value) size1 s1 i).map Prod.fst

/-- The conversion of a pointer to `bool`, which is what initialises a `bool` from a
`bool const *`: `false` for the null pointer, `true` for every other pointer.  A pointer is
null or the address of an object. -/
def bool_of_pointer (p : Option Nat) : Bool := p.isSome

/-! ## Reading the state after a primitive step -/

theorem getNext_setNext (s : Heap T) (x y : Loc) (q : Option Nat) :
    getNext (setNext s x q) y
      = if y = x then (getNext s x).map (fun _ => q) else getNext s y := by
  cases x <;> cases y <;> simp [getNext, setNext, upd]
  all_goals split_ifs with h <;> simp_all [Option.map_map, Function.comp_def]

theorem getNext_setNext_same (s : Heap T) (x : Loc) (q p : Option Nat)
    (h : getNext s x = some p) : getNext (setNext s x q) x = some q := by
  simp [getNext_setNext, h]

theorem getNext_setNext_ne (s : Heap T) (x y : Loc) (q : Option Nat) (h : y ≠ x) :
    getNext (setNext s x q) y = getNext s y := by
  simp [getNext_setNext, h]

theorem value_setNext (s : Heap T) (x : Loc) (q : Option Nat) (n : Nat) :
    value (setNext s x q) n = value s n := by
  cases x <;> simp [value, setNext, upd]
  split_ifs with h <;> simp_all [Option.map_map, Function.comp_def]

theorem brk_setNext (s : Heap T) (x : Loc) (q : Option Nat) :
    (setNext s x q).brk = s.brk := by
  cases x <;> rfl

theorem getNext_alloc (s : Heap T) (v : T) (y : Loc) :
    getNext (alloc s v) y = if y = .node s.brk then some none else getNext s y := by
  cases y <;> simp [getNext, alloc, upd]
  split_ifs <;> simp_all

theorem value_alloc (s : Heap T) (v : T) (n : Nat) :
    value (alloc s v) n = if n = s.brk then some v else value s n := by
  simp [value, alloc, upd]
  split_ifs <;> simp_all

theorem getNext_free (s : Heap T) (n : Nat) (y : Loc) :
    getNext (free s n) y = if y = .node n then none else getNext s y := by
  cases y <;> simp [getNext, free, upd]
  split_ifs <;> simp_all

theorem value_free (s : Heap T) (n m : Nat) :
    value (free s n) m = if m = n then none else value s m := by
  simp [value, free, upd]
  split_ifs <;> simp_all

theorem destroy_leaf (s : Heap T) (n k : Nat) (h : getNext s (.node n) = some none) :
    destroy (k + 1) s (some n) = some (free s n) := by
  simp only [getNext, Option.map_eq_some'] at h
  obtain ⟨c, hc, hn⟩ := h
  cases k <;> simp [destroy, hc, hn]

theorem reset_null (s : Heap T) (x : Loc) (p : Option Nat) (h : getNext s x = some none) :
    reset s x p = some (setNext s x p) := by
  simp [reset, h, destroy]

theorem reset_leaf (s : Heap T) (x : Loc) (p : Option Nat) (n : Nat)
    (h : getNext s x = some (some n)) (hn : getNext (setNext s x p) (.node n) = some none) :
    reset s x p = some (free (setNext s x p) n) := by
  simp only [reset, h]
  exact destroy_leaf (setNext s x p) n s.brk hn

theorem release_eq (s : Heap T) (x : Loc) (p : Option Nat) (h : getNext s x = some p) :
    release s x = some (setNext s x none, p) := by
  simp [release, h]

/-! ## Paths -/

theorem lastLoc_append (x : Loc) (pre post : List (Nat × T)) :
    lastLoc x (pre ++ post) = lastLoc (lastLoc x pre) post := by
  induction pre generalizing x with
  | nil => rfl
  | cons c rest ih => exact ih (.node c.1)

theorem lastLoc_mem (x : Loc) (cells : List (Nat × T)) : lastLoc x cells ∈ locs x cells := by
  induction cells generalizing x with
  | nil => simp [lastLoc, locs]
  | cons c rest ih =>
    have := ih (.node c.1)
    simp only [locs, List.map_cons, List.mem_cons] at this ⊢
    exact Or.inr this

theorem lastLoc_ne_node (x : Loc) (cells : List (Nat × T)) (n : Nat)
    (hx : x ≠ .node n) (hn : n ∉ cells.map Prod.fst) : lastLoc x cells ≠ .node n := by
  induction cells generalizing x with
  | nil => exact hx
  | cons c rest ih =>
    simp only [List.map_cons, List.mem_cons, not_or] at hn
    exact ih (.node c.1) (by simpa using Ne.symm hn.1) hn.2

theorem lastLoc_head_ne (l l2 : Nat) (cells : List (Nat × T)) (h : l ≠ l2) :
    lastLoc (.head l) cells ≠ .head l2 := by
  have := lastLoc_mem (.head l) cells
  simp only [locs, List.mem_cons, List.mem_map] at this
  rcases this with h1 | ⟨c, _, h1⟩
  · rw [h1]; simpa using h
  · rw [← h1]; simp

theorem path_getNext (s : Heap T) (x : Loc) (cells : List (Nat × T)) (q : Option Nat)
    (h : Path s x cells q) : getNext s (lastLoc x cells) = some q := by
  induction cells generalizing x with
  | nil => exact h
  | cons c rest ih => exact ih (.node c.1) h.2.2

theorem path_first (s : Heap T) (x : Loc) (cells : List (Nat × T)) (q : Option Nat)
    (h : Path s x cells q) :
    getNext s x = some (firstPtr q cells) := by
  cases cells with
  | nil => exact h
  | cons c rest => exact h.1

theorem path_congr (s1 s2 : Heap T) (x1 x2 : Loc) (cells : List (Nat × T)) (q : Option Nat)
    (hx : getNext s2 x2 = getNext s1 x1)
    (hc : ∀ c ∈ cells, getNext s2 (.node c.1) = getNext s1 (.node c.1) ∧
      value s2 c.1 = value s1 c.1)
    (h : Path s1 x1 cells q) : Path s2 x2 cells q := by
  induction cells generalizing x1 x2 with
  | nil => exact hx.trans h
  | cons c rest ih =>
    refine ⟨hx.trans h.1, (hc c (List.mem_cons_self _ _)).2.trans h.2.1, ?_⟩
    exact ih (.node c.1) (.node c.1) (hc c (List.mem_cons_self _ _)).1
      (fun d hd => hc d (List.mem_cons_of_mem _ hd)) h.2.2

theorem path_append (s : Heap T) (x : Loc) (pre post : List (Nat × T)) (q : Option Nat) :
    Path s x (pre ++ post) q ↔
      ∃ m, Path s x pre m ∧ Path s (lastLoc x pre) post q := by
  induction pre generalizing x with
  | nil =>
    constructor
    · intro h
      exact ⟨_, path_first s x post q h, h⟩
    · rintro ⟨_, _, h⟩
      exact h
  | cons c rest ih =>
    constructor
    · rintro ⟨h1, h2, h3⟩
      obtain ⟨m, hm, hp⟩ := (ih (.node c.1)).1 h3
      exact ⟨m, ⟨h1, h2, hm⟩, hp⟩
    · rintro ⟨m, ⟨h1, h2, hm⟩, hp⟩
      exact ⟨h1, h2, (ih (.node c.1)).2 ⟨m, hm, hp⟩⟩

theorem path_relink (s1 s2 : Heap T) (x : Loc) (pre : List (Nat × T)) (m m2 : Option Nat)
    (h : Path s1 x pre m) (hnd : (locs x pre).Nodup)
    (hl : ∀ y ∈ locs x pre, y ≠ lastLoc x pre → getNext s2 y = getNext s1 y)
    (hv : ∀ c ∈ pre, value s2 c.1 = value s1 c.1)
    (hm : getNext s2 (lastLoc x pre) = some m2) : Path s2 x pre m2 := by
  induction pre generalizing x with
  | nil => exact hm
  | cons c rest ih =>
    have hnd2 : (locs (.node c.1) rest).Nodup := (List.nodup_cons.1 hnd).2
    have hx : x ∉ locs (.node c.1) rest := (List.nodup_cons.1 hnd).1
    have hne : x ≠ lastLoc x (c :: rest) := fun e =>
      hx (e ▸ lastLoc_mem (.node c.1) rest)
    refine ⟨(hl x (List.mem_cons_self _ _) hne).trans h.1,
      (hv c (List.mem_cons_self _ _)).trans h.2.1, ?_⟩
    exact ih (.node c.1) h.2.2 hnd2
      (fun y hy hne => hl y (List.mem_cons_of_mem _ hy) hne)
      (fun d hd => hv d (List.mem_cons_of_mem _ hd)) hm

theorem locs_head_nodup (l : Nat) (cells : List (Nat × T)) :
    (locs (.head l) cells).Nodup ↔ (cells.map Prod.fst).Nodup := by
  simp only [locs, List.nodup_cons, List.mem_map, not_exists, not_and]
  constructor
  · rintro ⟨_, h⟩
    have : (cells.map (fun c => Loc.node c.1)) = (cells.map Prod.fst).map Loc.node := by
      simp [List.map_map, Function.comp_def]
    rw [this] at h
    exact List.Nodup.of_map _ h
  · intro h
    refine ⟨fun c _ => by simp, ?_⟩
    have : (cells.map (fun c => Loc.node c.1)) = (cells.map Prod.fst).map Loc.node := by
      simp [List.map_map, Function.comp_def]
    rw [this]
    exact List.Nodup.map (fun a b hab => by simpa using hab) h

theorem collect_path (s : Heap T) (cells : List (Nat × T)) :
    ∀ (x : Loc) (fuel : Nat) (it : iterator), Path s x cells none → cells.length < fuel →
      next s ⟨some x⟩ = some it → collect s fuel it = some (cells.map Prod.snd) := by
  induction cells with
  | nil =>
    intro x fuel it h hf hit
    obtain ⟨f, rfl⟩ : ∃ f, fuel = f + 1 := ⟨fuel - 1, by simp at hf; omega⟩
    have h1 : getNext s x = some none := h
    simp only [next, h1, Option.map_none', Option.some.injEq] at hit
    subst hit
    simp [collect, end_]
  | cons c rest ih =>
    intro x fuel it h hf hit
    obtain ⟨f, rfl⟩ : ∃ f, fuel = f + 1 := ⟨fuel - 1, by simp at hf; omega⟩
    obtain ⟨h1, h2, h3⟩ := h
    simp only [next, h1, Option.map_some', Option.some.injEq] at hit
    subst hit
    have h4 := path_first s (.node c.1) rest none h3
    have h5 : next s ⟨some (Loc.node c.1)⟩
        = some ⟨(firstPtr none rest).map Loc.node⟩ := by
      simp [next, h4]
    have h6 := ih (.node c.1) f _ h3 (by simp at hf; omega) h5
    simp [collect, end_, deref, h2, h5, h6]

theorem toList_of_isList (s : Heap T) (l : Nat) (cells : List (Nat × T)) (fuel : Nat)
    (h : IsList s l cells) (hf : cells.length < fuel) :
    toList s l fuel = some (cells.map Prod.snd) := by
  have h1 := path_first s (.head l) cells none h.1
  have h2 : next s ⟨some (Loc.head l)⟩
      = some ⟨(firstPtr none cells).map Loc.node⟩ := by
    simp [next, h1]
  simp only [toList, begin, before_begin, h2]
  exact collect_path s cells (.head l) fuel _ h.1 hf h2

/-! ## The effect of the single-step operations on the links -/

theorem emplace_after_effect (s : Heap T) (x : Loc) (m : Option Nat) (v : T)
    (hx : getNext s x = some m) (hne : x ≠ .node s.brk) :
    ∃ s2, emplace_after s ⟨some x⟩ v = some (s2, ⟨some (.node s.brk)⟩) ∧
      s2.brk = s.brk + 1 ∧ getNext s2 x = some (some s.brk) ∧
      getNext s2 (.node s.brk) = some m ∧ value s2 s.brk = some v ∧
      (∀ y, y ≠ x → y ≠ .node s.brk → getNext s2 y = getNext s y) ∧
      (∀ n, n ≠ s.brk → value s2 n = value s n) := by
  have hne2 : Loc.node s.brk ≠ x := fun e => hne e.symm
  have a1 : getNext (alloc s v) x = some m := by simp [getNext_alloc, hne, hx]
  have a2 : release (alloc s v) x = some (setNext (alloc s v) x none, m) := release_eq _ _ _ a1
  have a3 : getNext (setNext (alloc s v) x none) (.node s.brk) = some none := by
    simp [getNext_setNext, hne2, getNext_alloc]
  have a4 := reset_null _ _ m a3
  have a5 : getNext (setNext (setNext (alloc s v) x none) (.node s.brk) m) x = some none := by
    simp [getNext_setNext, hne, a1]
  have a6 := reset_null _ _ (some s.brk) a5
  have a7 : getNext (setNext (setNext (setNext (alloc s v) x none) (.node s.brk) m) x
      (some s.brk)) x = some (some s.brk) := by
    simp [getNext_setNext, hne, a1]
  refine ⟨setNext (setNext (setNext (alloc s v) x none) (.node s.brk) m) x (some s.brk),
    ?_, ?_, a7, ?_, ?_, ?_, ?_⟩
  · simp only [emplace_after, access, a2, a4, a6, a7]
    rfl
  · simp [brk_setNext, alloc]
  · simp [getNext_setNext, hne2, getNext_alloc]
  · simp [value_setNext, value_alloc]
  · intro y hy1 hy2
    simp [getNext_setNext, hy1, hy2, getNext_alloc]
  · intro n hn
    simp [value_setNext, value_alloc, hn]

theorem erase_after_effect (s : Heap T) (x : Loc) (n : Nat) (r : Option Nat)
    (hx : getNext s x = some (some n)) (hn : getNext s (.node n) = some r)
    (hne : x ≠ .node n) :
    ∃ s2, erase_after s ⟨some x⟩ = some (s2, ⟨r.map Loc.node⟩) ∧
      s2.brk = s.brk ∧ getNext s2 x = some r ∧ getNext s2 (.node n) = none ∧
      value s2 n = none ∧
      (∀ y, y ≠ x → y ≠ .node n → getNext s2 y = getNext s y) ∧
      (∀ k, k ≠ n → value s2 k = value s k) := by
  have hne2 : Loc.node n ≠ x := fun e => hne e.symm
  have a1 := release_eq s (.node n) r hn
  have a2 : getNext (setNext s (.node n) none) x = some (some n) := by
    simp [getNext_setNext, hne, hx]
  have a3 : getNext (setNext (setNext s (.node n) none) x r) (.node n) = some none := by
    simp [getNext_setNext, hne2, hn]
  have a4 := reset_leaf _ _ r n a2 a3
  have a5 : getNext (free (setNext (setNext s (.node n) none) x r) n) x = some r := by
    simp [getNext_free, hne, getNext_setNext, hx]
  refine ⟨free (setNext (setNext s (.node n) none) x r) n, ?_, ?_, a5, ?_, ?_, ?_, ?_⟩
  · simp only [erase_after, access, hx, a1, a4, a5]
  · simp [free, brk_setNext]
  · simp [getNext_free]
  · simp [value_free]
  · intro y hy1 hy2
    simp [getNext_free, getNext_setNext, hy1, hy2]
  · intro k hk
    simp [value_free, value_setNext, hk]

/-! ## Lists -/

theorem isList_frame (s s2 : Heap T) (l : Nat) (cells : List (Nat × T))
    (h : IsList s l cells) (hb : s.brk ≤ s2.brk)
    (hh : getNext s2 (.head l) = getNext s (.head l))
    (hc : ∀ c ∈ cells, getNext s2 (.node c.1) = getNext s (.node c.1) ∧
      value s2 c.1 = value s c.1) : IsList s2 l cells :=
  ⟨path_congr s s2 _ _ cells none hh hc h.1, h.2.1, fun c hcm => lt_of_lt_of_le (h.2.2 c hcm) hb⟩

theorem nodup_split (pre post : List (Nat × T)) (h : ((pre ++ post).map Prod.fst).Nodup) :
    (pre.map Prod.fst).Nodup ∧ (post.map Prod.fst).Nodup ∧
      ∀ c ∈ post, c.1 ∉ pre.map Prod.fst := by
  rw [List.map_append, List.nodup_append] at h
  refine ⟨h.1, h.2.1, fun c hc hp => h.2.2 hp (List.mem_map_of_mem _ hc)⟩

theorem nodup_join (pre post : List (Nat × T)) (h1 : (pre.map Prod.fst).Nodup)
    (h2 : (post.map Prod.fst).Nodup) (h3 : ∀ c ∈ post, c.1 ∉ pre.map Prod.fst) :
    ((pre ++ post).map Prod.fst).Nodup := by
  rw [List.map_append, List.nodup_append]
  refine ⟨h1, h2, ?_⟩
  intro a ha hb
  obtain ⟨c, hc, rfl⟩ := List.mem_map.1 hb
  exact h3 c hc ha

theorem mem_locs_head (l : Nat) (cells : List (Nat × T)) (y : Loc) (hy : y ∈ locs (.head l) cells) :
    y = .head l ∨ ∃ c ∈ cells, y = .node c.1 := by
  simp only [locs, List.mem_cons, List.mem_map] at hy
  rcases hy with h | ⟨c, hc, h⟩
  · exact Or.inl h
  · exact Or.inr ⟨c, hc, h.symm⟩

theorem emplace_after_isList (s : Heap T) (l : Nat) (pre post : List (Nat × T)) (v : T)
    (h : IsList s l (pre ++ post)) :
    ∃ s2, emplace_after s (posAfter l pre) v = some (s2, ⟨some (.node s.brk)⟩) ∧
      IsList s2 l (pre ++ (s.brk, v) :: post) ∧ s2.brk = s.brk + 1 ∧
      (∀ y, y ≠ lastLoc (.head l) pre → y ≠ .node s.brk → getNext s2 y = getNext s y) ∧
      (∀ n, n ≠ s.brk → value s2 n = value s n) := by
  obtain ⟨hp, hnd, hb⟩ := h
  obtain ⟨m, hpre, hpost⟩ := (path_append s _ pre post none).1 hp
  obtain ⟨nd1, nd2, nd3⟩ := nodup_split pre post hnd
  have hbpre : ∀ c ∈ pre, c.1 ≠ s.brk := fun c hc =>
    Nat.ne_of_lt (hb c (List.mem_append_left _ hc))
  have hbpost : ∀ c ∈ post, c.1 ≠ s.brk := fun c hc =>
    Nat.ne_of_lt (hb c (List.mem_append_right _ hc))
  have hx := path_getNext s _ pre m hpre
  have hne : lastLoc (.head l) pre ≠ .node s.brk := by
    apply lastLoc_ne_node _ _ _ (by simp)
    intro hm
    obtain ⟨c, hc, e⟩ := List.mem_map.1 hm
    exact hbpre c hc e
  obtain ⟨s2, e1, e2, e3, e4, e5, e6, e7⟩ := emplace_after_effect s _ m v hx hne
  refine ⟨s2, e1, ⟨?_, ?_, ?_⟩, e2, e6, e7⟩
  · refine (path_append s2 _ pre _ none).2 ⟨some s.brk, ?_, e3, e5, ?_⟩
    · refine path_relink s s2 _ pre m _ hpre ((locs_head_nodup l pre).2 nd1) ?_ ?_ e3
      · intro y hy hyne
        refine e6 y hyne ?_
        rcases mem_locs_head l pre y hy with rfl | ⟨c, hc, rfl⟩
        · simp
        · simpa using hbpre c hc
      · intro c hc
        exact e7 _ (hbpre c hc)
    · refine path_congr s s2 _ _ post none (e4.trans hx.symm) ?_ hpost
      intro c hc
      refine ⟨e6 _ ?_ (by simpa using hbpost c hc), e7 _ (hbpost c hc)⟩
      exact fun e => lastLoc_ne_node _ pre c.1 (by simp) (nd3 c hc) e.symm
  · apply nodup_join pre _ nd1
    · simp only [List.map_cons, List.nodup_cons]
      refine ⟨?_, nd2⟩
      intro hm
      obtain ⟨c, hc, e⟩ := List.mem_map.1 hm
      exact hbpost c hc e
    · intro c hc
      simp only [List.mem_cons] at hc
      rcases hc with rfl | hc
      · intro hm
        obtain ⟨c, hc, e⟩ := List.mem_map.1 hm
        exact hbpre c hc e
      · exact nd3 c hc
  · intro c hc
    rw [e2]
    simp only [List.mem_append, List.mem_cons] at hc
    rcases hc with hc | rfl | hc
    · exact Nat.lt_succ_of_lt (hb c (List.mem_append_left _ hc))
    · exact Nat.lt_succ_self _
    · exact Nat.lt_succ_of_lt (hb c (List.mem_append_right _ hc))

theorem erase_after_isList (s : Heap T) (l : Nat) (pre post : List (Nat × T)) (c : Nat × T)
    (h : IsList s l (pre ++ c :: post)) :
    ∃ s2, erase_after s (posAfter l pre) = some (s2, posOf post) ∧
      IsList s2 l (pre ++ post) ∧ s2.brk = s.brk ∧ value s2 c.1 = none ∧
      (∀ y, y ≠ lastLoc (.head l) pre → y ≠ .node c.1 → getNext s2 y = getNext s y) ∧
      (∀ n, n ≠ c.1 → value s2 n = value s n) := by
  obtain ⟨hp, hnd, hb⟩ := h
  obtain ⟨m, hpre, hc1, hc2, hpost⟩ := (path_append s _ pre (c :: post) none).1 hp
  obtain ⟨nd1, nd2, nd3⟩ := nodup_split pre (c :: post) hnd
  simp only [List.map_cons, List.nodup_cons] at nd2
  have hr := path_first s _ post none hpost
  have hne : lastLoc (.head l) pre ≠ .node c.1 :=
    lastLoc_ne_node _ pre c.1 (by simp) (nd3 c (List.mem_cons_self _ _))
  obtain ⟨s2, e1, e2, e3, e4, e5, e6, e7⟩ := erase_after_effect s _ c.1 _ hc1 hr hne
  have hcpost : ∀ d ∈ post, d.1 ≠ c.1 := fun d hd e =>
    nd2.1 (e ▸ List.mem_map_of_mem _ hd)
  have hcpre : ∀ d ∈ pre, d.1 ≠ c.1 := fun d hd e =>
    nd3 c (List.mem_cons_self _ _) (e ▸ List.mem_map_of_mem _ hd)
  refine ⟨s2, e1, ⟨?_, ?_, ?_⟩, e2, e5, e6, e7⟩
  · refine (path_append s2 _ pre _ none).2 ⟨firstPtr none post, ?_, ?_⟩
    · refine path_relink s s2 _ pre m _ hpre ((locs_head_nodup l pre).2 nd1) ?_ ?_ e3
      · intro y hy hyne
        refine e6 y hyne ?_
        rcases mem_locs_head l pre y hy with rfl | ⟨d, hd, rfl⟩
        · simp
        · simpa using hcpre d hd
      · intro d hd
        exact e7 _ (hcpre d hd)
    · refine path_congr s s2 _ _ post none (e3.trans hr.symm) ?_ hpost
      intro d hd
      refine ⟨e6 _ ?_ (by simpa using hcpost d hd), e7 _ (hcpost d hd)⟩
      exact fun e => lastLoc_ne_node _ pre d.1 (by simp)
        (nd3 d (List.mem_cons_of_mem _ hd)) e.symm
  · exact nodup_join pre post nd1 nd2.2 (fun d hd => nd3 d (List.mem_cons_of_mem _ hd))
  · intro d hd
    rw [e2]
    simp only [List.mem_append] at hd
    rcases hd with hd | hd
    · exact hb d (List.mem_append_left _ hd)
    · exact hb d (List.mem_append_right _ (List.mem_cons_of_mem _ hd))

theorem front_of_isList (s : Heap T) (l : Nat) (c : Nat × T) (rest : List (Nat × T))
    (h : IsList s l (c :: rest)) : front s l = some c.2 := by
  obtain ⟨⟨h1, h2, -⟩, -⟩ := h
  simp [front, begin, before_begin, next, h1, deref, h2]

theorem emplace_front_none (s : Heap T) (l : Nat) (v : T) : emplace_front s l v = none := by
  unfold emplace_front
  cases emplace_after s (before_begin l) v with
  | none => rfl
  | some r => rfl

theorem push_front_none (s : Heap T) (l : Nat) (v : T) : push_front s l v = none := by
  simp [push_front, emplace_front_none]

theorem next_posAfter (s : Heap T) (l : Nat) (pre post : List (Nat × T))
    (h : IsList s l (pre ++ post)) : next s (posAfter l pre) = some (posOf post) := by
  obtain ⟨m, hpre, hpost⟩ := (path_append s _ pre post none).1 h.1
  simp [next, posAfter, posOf, path_first s _ post none hpost]

theorem posAfter_snoc (l : Nat) (pre : List (Nat × T)) (c : Nat × T) :
    posAfter l (pre ++ [c]) = ⟨some (.node c.1)⟩ := by
  simp [posAfter, lastLoc_append, lastLoc]

theorem erase_after_loop_isList (l : Nat) (pre post : List (Nat × T)) (mid : List (Nat × T)) :
    ∀ (s : Heap T) (i0 : iterator) (fuel : Nat), IsList s l (pre ++ (mid ++ post)) →
      mid.length < fuel →
      ∃ s2, erase_after_loop (posAfter l pre) (posOf post) fuel s i0
          = some (s2, if mid.isEmpty then i0 else posOf post) ∧
        IsList s2 l (pre ++ post) ∧ s2.brk = s.brk := by
  induction mid with
  | nil =>
    intro s i0 fuel h hf
    obtain ⟨f, rfl⟩ : ∃ f, fuel = f + 1 := ⟨fuel - 1, by simp at hf; omega⟩
    have hn := next_posAfter s l pre post h
    exact ⟨s, by simp [erase_after_loop, hn], h, rfl⟩
  | cons c mid ih =>
    intro s i0 fuel h hf
    obtain ⟨f, rfl⟩ : ∃ f, fuel = f + 1 := ⟨fuel - 1, by simp at hf; omega⟩
    have hn := next_posAfter s l pre (c :: mid ++ post) h
    have hne : posOf (c :: mid ++ post) ≠ posOf post := by
      intro e
      cases post with
      | nil => simp [posOf, firstPtr] at e
      | cons d rest =>
        have hnd := (nodup_split pre _ h.2.1).2.1
        simp only [posOf, firstPtr, List.cons_append, Option.map_some', iterator.mk.injEq,
          Option.some.injEq, Loc.node.injEq] at e
        simp [e] at hnd
    obtain ⟨s1, e1, e2, e3, -⟩ := erase_after_isList s l pre (mid ++ post) c h
    obtain ⟨s2, f1, f2, f3⟩ := ih s1 (posOf (mid ++ post)) f e2 (by simp at hf; omega)
    refine ⟨s2, ?_, f2, f3.trans e3⟩
    have hn2 : next s (posAfter l pre) = some (posOf (c :: (mid ++ post))) := hn
    simp only [erase_after_loop, hn2]
    rw [if_pos (by simpa using hne), e1]
    simp only [f1]
    cases mid <;> simp

theorem resize_walk_spec (s : Heap T) (l : Nat) (size : Nat) :
    ∀ (pre post : List (Nat × T)), IsList s l (pre ++ post) →
      resize_walk s size (posAfter l pre)
        = some (size - post.length, posAfter l (pre ++ post.take size)) := by
  induction size with
  | zero =>
    intro pre post _
    simp [resize_walk]
  | succ size ih =>
    intro pre post h
    have hn := next_posAfter s l pre post h
    cases post with
    | nil => simp [resize_walk, hn, posOf, firstPtr, end_]
    | cons c rest =>
      have h2 : IsList s l ((pre ++ [c]) ++ rest) := by simpa using h
      have := ih (pre ++ [c]) rest h2
      rw [posAfter_snoc] at this
      simp [resize_walk, hn, posOf, firstPtr, end_, this]

theorem emplace_loop_isList (l : Nat) (post : List (Nat × T)) (v : T) (count : Nat) :
    ∀ (s : Heap T) (pre : List (Nat × T)), IsList s l (pre ++ post) →
      ∃ s2 new, emplace_loop v count s (posAfter l pre) = some (s2, posAfter l (pre ++ new)) ∧
        IsList s2 l (pre ++ new ++ post) ∧ new.map Prod.snd = List.replicate count v := by
  induction count with
  | zero =>
    intro s pre h
    exact ⟨s, [], by simp [emplace_loop], by simpa using h, rfl⟩
  | succ count ih =>
    intro s pre h
    obtain ⟨s1, e1, e2, -⟩ := emplace_after_isList s l pre post v h
    have e3 : IsList s1 l ((pre ++ [(s.brk, v)]) ++ post) := by simpa using e2
    obtain ⟨s2, new, f1, f2, f3⟩ := ih s1 (pre ++ [(s.brk, v)]) e3
    rw [posAfter_snoc] at f1
    refine ⟨s2, (s.brk, v) :: new, ?_, ?_, ?_⟩
    · simp only [emplace_loop, e1, f1]
      simp
    · simpa using f2
    · simp [f3, List.replicate_succ]

theorem splice_after_effect (s : Heap T) (src dst : Loc) (n : Nat) (r t : Option Nat)
    (hf : getNext s src = some (some n)) (hn : getNext s (.node n) = some r)
    (ht : getNext s dst = some t) (h1 : src ≠ .node n) (h2 : dst ≠ .node n) (h3 : src ≠ dst) :
    ∃ s2, splice_after s ⟨some dst⟩ ⟨some src⟩ = some (s2, ⟨some (.node n)⟩) ∧
      s2.brk = s.brk ∧ getNext s2 src = some r ∧ getNext s2 (.node n) = some t ∧
      getNext s2 dst = some (some n) ∧
      (∀ y, y ≠ src → y ≠ dst → y ≠ .node n → getNext s2 y = getNext s y) ∧
      (∀ k, value s2 k = value s k) := by
  have h1s : Loc.node n ≠ src := fun e => h1 e.symm
  have h2s : Loc.node n ≠ dst := fun e => h2 e.symm
  have h3s : dst ≠ src := fun e => h3 e.symm
  have a1 := release_eq s src _ hf
  have a2 : getNext (setNext s src none) (.node n) = some r := by
    simp [getNext_setNext, h1s, hn]
  have a3 := release_eq _ _ _ a2
  have a4 : getNext (setNext (setNext s src none) (.node n) none) src = some none := by
    simp [getNext_setNext, h1, hf]
  have a5 := reset_null _ _ r a4
  have a6 : getNext (setNext (setNext (setNext s src none) (.node n) none) src r) dst
      = some t := by
    simp [getNext_setNext, h3s, h2, ht]
  have a7 := release_eq _ _ _ a6
  have a8 : getNext (setNext (setNext (setNext (setNext s src none) (.node n) none) src r) dst
      none) (.node n) = some none := by
    simp [getNext_setNext, h2s, h1s, hn]
  have a9 := reset_null _ _ t a8
  have a10 : getNext (setNext (setNext (setNext (setNext (setNext s src none) (.node n) none)
      src r) dst none) (.node n) t) dst = some none := by
    simp [getNext_setNext, h2, h3s, ht]
  have a11 := reset_null _ _ (some n) a10
  have a12 : getNext (setNext (setNext (setNext (setNext (setNext (setNext s src none)
      (.node n) none) src r) dst none) (.node n) t) dst (some n)) dst = some (some n) := by
    simp [getNext_setNext, h2, h3s, ht]
  refine ⟨_, ?_, ?_, ?_, ?_, a12, ?_, ?_⟩
  · simp only [splice_after, access, a1, a3, a5, a7, a9, a11, next, a12]
    rfl
  · simp [brk_setNext]
  · simp [getNext_setNext, h3, h1, hf]
  · simp [getNext_setNext, h2s, h1s, hn]
  · intro y hy1 hy2 hy3
    simp [getNext_setNext, hy1, hy2, hy3]
  · intro k
    simp [value_setNext]

theorem lastLoc_head_cases (l : Nat) (pre : List (Nat × T)) :
    lastLoc (.head l) pre = .head l ∨ ∃ c ∈ pre, lastLoc (.head l) pre = .node c.1 :=
  mem_locs_head l pre _ (lastLoc_mem _ pre)

theorem lastLoc_ne_lastLoc (a b : Nat) (preA preB : List (Nat × T)) (hab : a ≠ b)
    (hd : ∀ x ∈ preA, ∀ y ∈ preB, x.1 ≠ y.1) :
    lastLoc (.head a) preA ≠ lastLoc (.head b) preB := by
  rcases lastLoc_head_cases b preB with e | ⟨d, hdm, e⟩
  · rw [e]
    exact lastLoc_head_ne a b preA hab
  · rw [e]
    apply lastLoc_ne_node _ _ _ (by simp)
    intro hm
    obtain ⟨c, hc, e2⟩ := List.mem_map.1 hm
    exact hd c hc d hdm e2

theorem splice_after_isList (s : Heap T) (a b : Nat) (preA postA preB postB : List (Nat × T))
    (c : Nat × T) (hA : IsList s a (preA ++ c :: postA)) (hB : IsList s b (preB ++ postB))
    (hab : a ≠ b) (hd : ∀ x ∈ preA ++ c :: postA, ∀ y ∈ preB ++ postB, x.1 ≠ y.1) :
    ∃ s2, splice_after s (posAfter b preB) (posAfter a preA) = some (s2, ⟨some (.node c.1)⟩) ∧
      IsList s2 a (preA ++ postA) ∧ IsList s2 b (preB ++ c :: postB) ∧ s2.brk = s.brk ∧
      (∀ y, y ≠ lastLoc (.head a) preA → y ≠ lastLoc (.head b) preB → y ≠ .node c.1 →
        getNext s2 y = getNext s y) ∧
      (∀ k, value s2 k = value s k) := by
  obtain ⟨hpA, hndA, hbA⟩ := hA
  obtain ⟨hpB, hndB, hbB⟩ := hB
  obtain ⟨mA, hpreA, hc1, hc2, hpostA⟩ := (path_append s _ preA (c :: postA) none).1 hpA
  obtain ⟨mB, hpreB, hpostB⟩ := (path_append s _ preB postB none).1 hpB
  obtain ⟨ndA1, ndA2, ndA3⟩ := nodup_split preA (c :: postA) hndA
  obtain ⟨ndB1, ndB2, ndB3⟩ := nodup_split preB postB hndB
  simp only [List.map_cons, List.nodup_cons] at ndA2
  have hr := path_first s _ postA none hpostA
  have ht := path_getNext s _ preB mB hpreB
  -- the three objects whose links change are distinct
  have hcpreA : ∀ d ∈ preA, d.1 ≠ c.1 := fun d hdm e =>
    ndA3 c (List.mem_cons_self _ _) (e ▸ List.mem_map_of_mem _ hdm)
  have hcpostA : ∀ d ∈ postA, d.1 ≠ c.1 := fun d hdm e =>
    ndA2.1 (e ▸ List.mem_map_of_mem _ hdm)
  have hcB : ∀ d ∈ preB ++ postB, d.1 ≠ c.1 := fun d hdm e =>
    hd c (List.mem_append_right _ (List.mem_cons_self _ _)) d hdm e.symm
  have h1 : lastLoc (.head a) preA ≠ .node c.1 :=
    lastLoc_ne_node _ preA c.1 (by simp) (ndA3 c (List.mem_cons_self _ _))
  have h2 : lastLoc (.head b) preB ≠ .node c.1 := by
    apply lastLoc_ne_node _ _ _ (by simp)
    intro hm
    obtain ⟨d, hdm, e⟩ := List.mem_map.1 hm
    exact hcB d (List.mem_append_left _ hdm) e
  have h3 : lastLoc (.head a) preA ≠ lastLoc (.head b) preB :=
    lastLoc_ne_lastLoc a b preA preB hab (fun x hx y hy =>
      hd x (List.mem_append_left _ hx) y (List.mem_append_left _ hy))
  -- nodes of A are not the destination position, nodes of B are not the source position
  have hAto : ∀ d ∈ preA ++ c :: postA, Loc.node d.1 ≠ lastLoc (.head b) preB := by
    intro d hdm e
    refine lastLoc_ne_node (.head b) preB d.1 (by simp) ?_ e.symm
    intro hm
    obtain ⟨y, hy, e2⟩ := List.mem_map.1 hm
    exact hd d hdm y (List.mem_append_left _ hy) e2.symm
  have hBfr : ∀ d ∈ preB ++ postB, Loc.node d.1 ≠ lastLoc (.head a) preA := by
    intro d hdm e
    refine lastLoc_ne_node (.head a) preA d.1 (by simp) ?_ e.symm
    intro hm
    obtain ⟨x, hx, e2⟩ := List.mem_map.1 hm
    exact hd x (List.mem_append_left _ hx) d hdm e2
  have hpostAfr : ∀ d ∈ postA, Loc.node d.1 ≠ lastLoc (.head a) preA := fun d hdm e =>
    lastLoc_ne_node (.head a) preA d.1 (by simp) (ndA3 d (List.mem_cons_of_mem _ hdm)) e.symm
  have hpostBto : ∀ d ∈ postB, Loc.node d.1 ≠ lastLoc (.head b) preB := fun d hdm e =>
    lastLoc_ne_node (.head b) preB d.1 (by simp) (ndB3 d hdm) e.symm
  have hhead_a : Loc.head a ≠ lastLoc (.head b) preB :=
    fun e => lastLoc_head_ne b a preB (Ne.symm hab) e.symm
  have hhead_b : Loc.head b ≠ lastLoc (.head a) preA :=
    fun e => lastLoc_head_ne a b preA hab e.symm
  obtain ⟨s2, e1, e2, e3, e4, e5, e6, e7⟩ :=
    splice_after_effect s _ _ c.1 _ mB hc1 hr ht h1 h2 h3
  refine ⟨s2, e1, ⟨?_, ?_, ?_⟩, ⟨?_, ?_, ?_⟩, e2, e6, e7⟩
  · refine (path_append s2 _ preA _ none).2 ⟨firstPtr none postA, ?_, ?_⟩
    · refine path_relink s s2 _ preA mA _ hpreA ((locs_head_nodup a preA).2 ndA1) ?_
        (fun d _ => e7 _) e3
      intro y hy hyne
      rcases mem_locs_head a preA y hy with rfl | ⟨d, hdm, rfl⟩
      · exact e6 _ hyne hhead_a (by simp)
      · exact e6 _ hyne (hAto d (List.mem_append_left _ hdm)) (by simpa using hcpreA d hdm)
    · refine path_congr s s2 _ _ postA none (e3.trans hr.symm) ?_ hpostA
      intro d hdm
      exact ⟨e6 _ (hpostAfr d hdm)
        (hAto d (List.mem_append_right _ (List.mem_cons_of_mem _ hdm)))
        (by simpa using hcpostA d hdm), e7 _⟩
  · exact nodup_join preA postA ndA1 ndA2.2 (fun d hdm => ndA3 d (List.mem_cons_of_mem _ hdm))
  · intro d hdm
    rw [e2]
    simp only [List.mem_append] at hdm
    rcases hdm with hdm | hdm
    · exact hbA d (List.mem_append_left _ hdm)
    · exact hbA d (List.mem_append_right _ (List.mem_cons_of_mem _ hdm))
  · refine (path_append s2 _ preB _ none).2 ⟨some c.1, ?_, e5, (e7 _).trans hc2, ?_⟩
    · refine path_relink s s2 _ preB mB _ hpreB ((locs_head_nodup b preB).2 ndB1) ?_
        (fun d _ => e7 _) e5
      intro y hy hyne
      rcases mem_locs_head b preB y hy with rfl | ⟨d, hdm, rfl⟩
      · exact e6 _ hhead_b hyne (by simp)
      · exact e6 _ (hBfr d (List.mem_append_left _ hdm)) hyne
          (by simpa using hcB d (List.mem_append_left _ hdm))
    · refine path_congr s s2 _ _ postB none (e4.trans ht.symm) ?_ hpostB
      intro d hdm
      exact ⟨e6 _ (hBfr d (List.mem_append_right _ hdm)) (hpostBto d hdm)
        (by simpa using hcB d (List.mem_append_right _ hdm)), e7 _⟩
  · apply nodup_join preB _ ndB1
    · simp only [List.map_cons, List.nodup_cons]
      refine ⟨?_, ndB2⟩
      intro hm
      obtain ⟨d, hdm, e⟩ := List.mem_map.1 hm
      exact hcB d (List.mem_append_right _ hdm) e
    · intro d hdm
      simp only [List.mem_cons] at hdm
      rcases hdm with rfl | hdm
      · intro hm
        obtain ⟨y, hy, e⟩ := List.mem_map.1 hm
        exact hcB y (List.mem_append_left _ hy) e
      · exact ndB3 d hdm
  · intro d hdm
    rw [e2]
    simp only [List.mem_append, List.mem_cons] at hdm
    rcases hdm with hdm | rfl | hdm
    · exact hbB d (List.mem_append_left _ hdm)
    · exact hbA d (List.mem_append_right _ (List.mem_cons_self _ _))
    · exact hbB d (List.mem_append_right _ hdm)

/-- The loop of the general branch does the range splice: the cells `mid`, strictly between
`first` and `last` in `a`, move behind `pos` in `b`, in order, and the final `pos`
references the last of them. -/
theorem splice_after_general_isList (a b : Nat) (preA postA postB : List (Nat × T))
    (hab : a ≠ b) (mid : List (Nat × T)) :
    ∀ (s : Heap T) (preB : List (Nat × T)) (fuel : Nat),
      IsList s a (preA ++ (mid ++ postA)) → IsList s b (preB ++ postB) →
      (∀ x ∈ preA ++ (mid ++ postA), ∀ y ∈ preB ++ postB, x.1 ≠ y.1) → mid.length < fuel →
      ∃ s2, splice_after_general (posAfter a preA) (posOf postA) fuel s (posAfter b preB)
          = some (s2, posAfter b (preB ++ mid)) ∧
        IsList s2 a (preA ++ postA) ∧ IsList s2 b (preB ++ mid ++ postB) ∧
        s2.brk = s.brk := by
  induction mid with
  | nil =>
    intro s preB fuel hA hB _ hf
    obtain ⟨f, rfl⟩ : ∃ f, fuel = f + 1 := ⟨fuel - 1, by simp at hf; omega⟩
    have hn := next_posAfter s a preA postA hA
    exact ⟨s, by simp [splice_after_general, hn], hA, by simpa using hB, rfl⟩
  | cons c mid ih =>
    intro s preB fuel hA hB hd hf
    obtain ⟨f, rfl⟩ : ∃ f, fuel = f + 1 := ⟨fuel - 1, by simp at hf; omega⟩
    have hn : next s (posAfter a preA) = some (posOf (c :: (mid ++ postA))) :=
      next_posAfter s a preA (c :: mid ++ postA) hA
    have hne : posOf (c :: (mid ++ postA)) ≠ posOf postA := by
      intro e
      cases postA with
      | nil => simp [posOf, firstPtr] at e
      | cons d rest =>
        have hnd := (nodup_split preA _ hA.2.1).2.1
        simp only [posOf, firstPtr, Option.map_some', iterator.mk.injEq,
          Option.some.injEq, Loc.node.injEq] at e
        simp [e] at hnd
    obtain ⟨s1, e1, e2, e3, e4, -⟩ :=
      splice_after_isList s a b preA (mid ++ postA) preB postB c hA hB hab hd
    have e5 : IsList s1 b ((preB ++ [c]) ++ postB) := by simpa using e3
    have hd2 : ∀ x ∈ preA ++ (mid ++ postA), ∀ y ∈ (preB ++ [c]) ++ postB, x.1 ≠ y.1 := by
      intro x hx y hy
      simp only [List.mem_append, List.mem_singleton] at hx hy
      have hxA : x ∈ preA ++ (c :: mid ++ postA) := by
        simp only [List.cons_append, List.mem_append, List.mem_cons]
        tauto
      rcases hy with (hy | rfl) | hy
      · exact hd x hxA y (List.mem_append_left _ hy)
      · intro e
        have hnd := hA.2.1
        obtain ⟨nd1, nd2, nd3⟩ := nodup_split preA _ hnd
        simp only [List.cons_append, List.map_cons, List.nodup_cons] at nd2
        rcases hx with hx | hx
        · exact nd3 y (List.mem_cons_self _ _) (e ▸ List.mem_map_of_mem _ hx)
        · exact nd2.1 (e ▸ List.mem_map_of_mem _ (List.mem_append.2 hx))
      · exact hd x hxA y (List.mem_append_right _ hy)
    obtain ⟨s2, f1, f2, f3, f4⟩ := ih s1 (preB ++ [c]) f e2 e5 hd2 (by simp at hf; omega)
    refine ⟨s2, ?_, f2, by simpa using f3, f4.trans e4⟩
    rw [posAfter_snoc] at f1
    simp only [splice_after_general, hn]
    rw [if_pos (by simpa using hne), e1]
    simpa using f1

/-! ## Node-level facts -/

theorem nodes_eq_of (s s2 : Heap T) (k : Nat)
    (h1 : getNext s2 (.node k) = getNext s (.node k)) (h2 : value s2 k = value s k) :
    s2.nodes k = s.nodes k := by
  simp only [getNext, value] at h1 h2
  cases hs : s.nodes k with
  | none => simpa [hs] using h1
  | some c =>
    cases hs2 : s2.nodes k with
    | none => simp [hs, hs2] at h1
    | some c2 =>
      simp only [hs, hs2, Option.map_some', Option.some.injEq] at h1 h2
      cases c
      cases c2
      simp_all

theorem heads_eq_of (s s2 : Heap T) (l : Nat)
    (h : getNext s2 (.head l) = getNext s (.head l)) : s2.heads l = s.heads l := by
  simpa [getNext] using h

theorem deref_eq_of (s s2 : Heap T) (it : iterator)
    (h : ∀ k, it = ⟨some (.node k)⟩ → value s2 k = value s k) : deref s2 it = deref s it := by
  obtain ⟨p⟩ := it
  cases p with
  | none => rfl
  | some x =>
    cases x with
    | head l => rfl
    | node k => exact h k rfl

theorem range_loop_isList (l : Nat) (post : List (Nat × T)) (vs : List T) :
    ∀ (s : Heap T) (pre : List (Nat × T)), IsList s l (pre ++ post) →
      ∃ s2 new, range_loop vs s (posAfter l pre) = some (s2, posAfter l (pre ++ new)) ∧
        IsList s2 l (pre ++ new ++ post) ∧ new.map Prod.snd = vs ∧ s.brk ≤ s2.brk ∧
        (∀ y, (∀ c ∈ new, y ≠ .node c.1) → y ≠ lastLoc (.head l) pre → (∀ k, y = .node k → k < s.brk) →
          getNext s2 y = getNext s y) ∧
        (∀ k, k < s.brk → value s2 k = value s k) := by
  induction vs with
  | nil =>
    intro s pre h
    exact ⟨s, [], by simp [range_loop], by simpa using h, rfl, le_refl _,
      fun _ _ _ _ => rfl, fun _ _ => rfl⟩
  | cons v vs ih =>
    intro s pre h
    obtain ⟨s1, e1, e2, eb, eg, ev⟩ := emplace_after_isList s l pre post v h
    have e3 : IsList s1 l ((pre ++ [(s.brk, v)]) ++ post) := by simpa using e2
    obtain ⟨s2, new, f1, f2, f3, fb, fg, fv⟩ := ih s1 (pre ++ [(s.brk, v)]) e3
    rw [posAfter_snoc] at f1
    refine ⟨s2, (s.brk, v) :: new, ?_, ?_, ?_, ?_, ?_, ?_⟩
    · simp only [range_loop, e1, f1]
      simp
    · simpa using f2
    · simp [f3]
    · omega
    · intro y hy1 hy2 hy3
      have hyb : y ≠ .node s.brk := hy1 _ (List.mem_cons_self _ _)
      rw [fg y (fun c hc => hy1 c (List.mem_cons_of_mem _ hc)) ?_ ?_]
      · exact eg y hy2 hyb
      · rw [lastLoc_append]
        simpa [lastLoc] using hyb
      · intro k hk
        have := hy3 k hk
        omega
    · intro k hk
      rw [fv k (by omega)]
      exact ev k (Nat.ne_of_lt hk)

theorem isList_new_list (s : Heap T) (l : Nat) : IsList (new_list s l) l [] := by
  refine ⟨?_, by simp, by simp⟩
  simp [Path, getNext, new_list, upd]

theorem empty_of_isList_nil (s : Heap T) (l : Nat) (h : IsList s l []) :
    empty s l = some true := by
  have h1 : getNext s (.head l) = some none := h.1
  simp [empty, begin, before_begin, next, h1, end_]

theorem swap_getNext_head (s : Heap T) (a b : Nat) :
    getNext (swap s a b) (.head a) = getNext s (.head b) ∧
    getNext (swap s a b) (.head b) = getNext s (.head a) := by
  simp only [swap, getNext_setNext]
  by_cases hab : a = b
  · subst hab
    simp [getNext]
  · have hba : b ≠ a := fun e => hab e.symm
    simp [getNext, hab, hba]

theorem swap_getNext_node (s : Heap T) (a b k : Nat) :
    getNext (swap s a b) (.node k) = getNext s (.node k) := by
  simp [swap, getNext_setNext]

theorem swap_value (s : Heap T) (a b k : Nat) : value (swap s a b) k = value s k := by
  simp [swap, value_setNext]

theorem splice_after_end_effect (s : Heap T) (src dst : Loc) (r : Option Nat)
    (hs : getNext s src = some r) (hd : getNext s dst = some none) (hne : src ≠ dst) :
    ∃ s2, splice_after_end s ⟨some dst⟩ ⟨some src⟩ = some (s2, ⟨some dst⟩) ∧
      s2.brk = s.brk ∧ getNext s2 src = some none ∧ getNext s2 dst = some r ∧
      (∀ y, y ≠ src → y ≠ dst → getNext s2 y = getNext s y) ∧
      (∀ k, value s2 k = value s k) := by
  have hne2 : dst ≠ src := fun e => hne e.symm
  have a1 := release_eq s src r hs
  have a2 : getNext (setNext s src none) dst = some none := by
    simp [getNext_setNext, hne2, hd]
  have a3 := reset_null _ _ r a2
  refine ⟨setNext (setNext s src none) dst r, ?_, ?_, ?_, ?_, ?_, ?_⟩
  · simp only [splice_after_end, access, a1, a3]
  · simp [brk_setNext]
  · simp [getNext_setNext, hne, hs]
  · simp [getNext_setNext, hne2, hd]
  · intro y hy1 hy2
    simp [getNext_setNext, hy1, hy2]
  · intro k
    simp [value_setNext]

theorem splice_after_end_isList (s : Heap T) (a b : Nat) (preA tailA cellsB : List (Nat × T))
    (hA : IsList s a (preA ++ tailA)) (hB : IsList s b cellsB) (hab : a ≠ b)
    (hd : ∀ x ∈ preA ++ tailA, ∀ y ∈ cellsB, x.1 ≠ y.1) :
    ∃ s2, splice_after_end s (posAfter b cellsB) (posAfter a preA)
        = some (s2, posAfter b cellsB) ∧
      IsList s2 a preA ∧ IsList s2 b (cellsB ++ tailA) ∧ s2.brk = s.brk := by
  obtain ⟨hpA, hndA, hbA⟩ := hA
  obtain ⟨hpB, hndB, hbB⟩ := hB
  obtain ⟨mA, hpreA, htail⟩ := (path_append s _ preA tailA none).1 hpA
  obtain ⟨ndA1, ndA2, ndA3⟩ := nodup_split preA tailA hndA
  have hr := path_getNext s _ preA mA hpreA
  have ht := path_getNext s _ cellsB none hpB
  have h3 : lastLoc (.head a) preA ≠ lastLoc (.head b) cellsB :=
    lastLoc_ne_lastLoc a b preA cellsB hab (fun x hx y hy =>
      hd x (List.mem_append_left _ hx) y hy)
  have hAto : ∀ d ∈ preA ++ tailA, Loc.node d.1 ≠ lastLoc (.head b) cellsB := by
    intro d hdm e
    refine lastLoc_ne_node (.head b) cellsB d.1 (by simp) ?_ e.symm
    intro hm
    obtain ⟨y, hy, e2⟩ := List.mem_map.1 hm
    exact hd d hdm y hy e2.symm
  have hBfr : ∀ d ∈ cellsB, Loc.node d.1 ≠ lastLoc (.head a) preA := by
    intro d hdm e
    refine lastLoc_ne_node (.head a) preA d.1 (by simp) ?_ e.symm
    intro hm
    obtain ⟨x, hx, e2⟩ := List.mem_map.1 hm
    exact hd x (List.mem_append_left _ hx) d hdm e2
  have htailfr : ∀ d ∈ tailA, Loc.node d.1 ≠ lastLoc (.head a) preA := fun d hdm e =>
    lastLoc_ne_node (.head a) preA d.1 (by simp) (ndA3 d hdm) e.symm
  have hhead_a : Loc.head a ≠ lastLoc (.head b) cellsB :=
    fun e => lastLoc_head_ne b a cellsB (Ne.symm hab) e.symm
  have hhead_b : Loc.head b ≠ lastLoc (.head a) preA :=
    fun e => lastLoc_head_ne a b preA hab e.symm
  obtain ⟨s2, e1, e2, e3, e4, e5, e6⟩ := splice_after_end_effect s _ _ mA hr ht h3
  refine ⟨s2, e1, ⟨?_, ndA1, ?_⟩, ⟨?_, ?_, ?_⟩, e2⟩
  · refine path_relink s s2 _ preA mA _ hpreA ((locs_head_nodup a preA).2 ndA1) ?_
      (fun d _ => e6 _) e3
    intro y hy hyne
    rcases mem_locs_head a preA y hy with rfl | ⟨d, hdm, rfl⟩
    · exact e5 _ hyne hhead_a
    · exact e5 _ hyne (hAto d (List.mem_append_left _ hdm))
  · intro d hdm
    rw [e2]
    exact hbA d (List.mem_append_left _ hdm)
  · refine (path_append s2 _ cellsB _ none).2 ⟨mA, ?_, ?_⟩
    · refine path_relink s s2 _ cellsB none _ hpB ((locs_head_nodup b cellsB).2 hndB) ?_
        (fun d _ => e6 _) e4
      intro y hy hyne
      rcases mem_locs_head b cellsB y hy with rfl | ⟨d, hdm, rfl⟩
      · exact e5 _ hhead_b hyne
      · exact e5 _ (hBfr d hdm) hyne
    · refine path_congr s s2 _ _ tailA none (e4.trans hr.symm) ?_ htail
      intro d hdm
      exact ⟨e5 _ (htailfr d hdm) (hAto d (List.mem_append_right _ hdm)), e6 _⟩
  · apply nodup_join cellsB tailA hndB ndA2
    intro d hdm hm
    obtain ⟨y, hy, e⟩ := List.mem_map.1 hm
    exact hd d (List.mem_append_right _ hdm) y hy e.symm
  · intro d hdm
    rw [e2]
    simp only [List.mem_append] at hdm
    rcases hdm with hdm | hdm
    · exact hbB d hdm
    · exact hbA d (List.mem_append_right _ hdm)

/-- The range `splice_after` on two distinct lists, by the branch it takes. -/
theorem splice_after_range_isList (s : Heap T) (a b : Nat)
    (preA mid postA preB postB : List (Nat × T)) (fuel : Nat)
    (hA : IsList s a (preA ++ (mid ++ postA))) (hB : IsList s b (preB ++ postB))
    (hab : a ≠ b) (hd : ∀ x ∈ preA ++ (mid ++ postA), ∀ y ∈ preB ++ postB, x.1 ≠ y.1)
    (hf : mid.length < fuel) :
    ∃ s2 it, splice_after_range fuel s (posAfter b preB) (posAfter a preA) (posOf postA)
        = some (s2, it) ∧ s2.brk = s.brk ∧
      ((postB = [] ∧ it = posAfter b preB ∧ IsList s2 a preA ∧
          IsList s2 b (preB ++ (mid ++ postA))) ∨
       (postB ≠ [] ∧ it = posAfter b (preB ++ mid) ∧ IsList s2 a (preA ++ postA) ∧
          IsList s2 b (preB ++ mid ++ postB))) := by
  have hn := next_posAfter s b preB postB hB
  cases postB with
  | nil =>
    have hB2 : IsList s b preB := by simpa using hB
    have hd2 : ∀ x ∈ preA ++ (mid ++ postA), ∀ y ∈ preB, x.1 ≠ y.1 := by
      intro x hx y hy
      exact hd x hx y (by simpa using hy)
    obtain ⟨s2, e1, e2, e3, e4⟩ :=
      splice_after_end_isList s a b preA (mid ++ postA) preB hA hB2 hab hd2
    refine ⟨s2, posAfter b preB, ?_, e4, Or.inl ⟨rfl, rfl, e2, e3⟩⟩
    have hp : posOf ([] : List (Nat × T)) = end_ := rfl
    simp only [splice_after_range, hn, hp, if_true, e1]
    rfl
  | cons d rest =>
    obtain ⟨s2, e1, e2, e3, e4⟩ :=
      splice_after_general_isList a b preA postA (d :: rest) hab mid s preB fuel hA hB hd hf
    refine ⟨s2, posAfter b (preB ++ mid), ?_, e4, Or.inr ⟨by simp, rfl, e2, e3⟩⟩
    have hp : posOf (d :: rest) ≠ end_ := by simp [posOf, firstPtr, end_]
    simp only [splice_after_range, hn, if_neg hp, e1]
    rfl

/-- What `resize(size, value)` does with its pointer argument: the list keeps its first
`n` cells and gains `n - m` nodes, each holding `ctor value`. -/
theorem resize_value_isList {P : Type} (ctor : P → T) (s : Heap T) (l : Nat)
    (cells : List (Nat × T)) (n fuel : Nat) (value : P) (h : IsList s l cells)
    (hf : cells.length - n < fuel) :
    ∃ s2 new, resize_value ctor fuel s l n value = some s2 ∧
      IsList s2 l (cells.take n ++ new) ∧
      new.map Prod.snd = List.replicate (n - cells.length) (ctor value) := by
  have h0 : IsList s l (([] : List (Nat × T)) ++ cells) := h
  have hw := resize_walk_spec s l n [] cells h0
  have h1 : IsList s l (cells.take n ++ (cells.drop n ++ [])) := by simpa using h
  obtain ⟨s1, e1, e2, -⟩ := erase_after_loop_isList l (cells.take n) [] (cells.drop n) s
    ⟨none⟩ fuel h1 (by simpa using hf)
  obtain ⟨s2, new, f1, f2, f3⟩ := emplace_loop_isList l [] (ctor value) (n - cells.length) s1
    (cells.take n) e2
  refine ⟨s2, new, ?_, by simpa using f2, f3⟩
  have hb : before_begin l = posAfter l ([] : List (Nat × T)) := rfl
  have hp : posOf ([] : List (Nat × T)) = end_ := rfl
  simp only [List.nil_append] at hw
  simp only [resize_value, hb, hw, erase_after_range, ← hp, e1, f1]
  rfl

/-! ## The claims -/

/-- C1, the code at a failing input: `A` is list `0`, holding `{1, 2, 3}`, and `B` is list
`1`, holding `{4}`; `pos` is the position of `4`, the last of `B` (its successor is
`end()`), `first` is `A.before_begin()` and `last` is the position of `3`.  The range
`B.splice_after(pos, A, first, last)` should move `1, 2` and leave `A = {3}`,
`B = {4, 1, 2}`; the code moves everything after `first`: `A = {}`, `B = {4, 1, 2, 3}`. -/
theorem splice_after_range_at_end_ignores_last :
    IsList exHeap 0 [(0, 1), (1, 2), (2, 3)] ∧ IsList exHeap 1 [(3, 4)] ∧
    next exHeap (posAfter 1 [(3, 4)]) = some end_ ∧
    (splice_after_range 3 exHeap (posAfter 1 [(3, 4)]) (before_begin 0) (posOf [(2, 3)])).bind
      (fun r => toList r.1 0 5) = some [] ∧
    (splice_after_range 3 exHeap (posAfter 1 [(3, 4)]) (before_begin 0) (posOf [(2, 3)])).bind
      (fun r => toList r.1 1 5) = some [4, 1, 2, 3] ∧
    ¬ ((splice_after_range 3 exHeap (posAfter 1 [(3, 4)]) (before_begin 0)
      (posOf [(2, 3)])).bind (fun r => toList r.1 0 5) = some [3]) ∧
    ¬ ((splice_after_range 3 exHeap (posAfter 1 [(3, 4)]) (before_begin 0)
      (posOf [(2, 3)])).bind (fun r => toList r.1 1 5) = some [4, 1, 2]) := by
  decide

/-- C2, the two branches at a failing input: with `A = {1, 2, 3}` (list `0`), `B = {4}`
(list `1`), `pos` the position of `4` (its successor is `end()`), `first` the sentinel of
`A` and `last` the position of `3`, the end-of-destination branch leaves `A = {}` and
`B = {4, 1, 2, 3}`, while the loop of the general branch on the same arguments leaves
`A = {3}` and `B = {4, 1, 2}`. -/
theorem splice_after_branches_differ :
    next exHeap (posAfter 1 [(3, 4)]) = some end_ ∧
    (splice_after_end exHeap (posAfter 1 [(3, 4)]) (before_begin 0)).bind
      (fun r => toList r.1 0 5) = some [] ∧
    (splice_after_end exHeap (posAfter 1 [(3, 4)]) (before_begin 0)).bind
      (fun r => toList r.1 1 5) = some [4, 1, 2, 3] ∧
    (splice_after_general (before_begin 0) (posOf [(2, 3)]) 3 exHeap
      (posAfter 1 [(3, 4)])).bind (fun r => toList r.1 0 5) = some [3] ∧
    (splice_after_general (before_begin 0) (posOf [(2, 3)]) 3 exHeap
      (posAfter 1 [(3, 4)])).bind (fun r => toList r.1 1 5) = some [4, 1, 2] := by
  decide

/-- C3: for a list `l` holding `pre ++ post` and the position `pos` of the last cell of
`pre` (`before_begin()` when `pre` is empty), `insert_after(pos, v)` succeeds and returns a
position referencing a new node `n` that holds `v`; afterwards the list is `pre`, then the
new node, then `post`, its traversal is the old elements up to `pos`, then `v`, then the
old elements after `pos`, and its length has grown by one. -/
theorem insert_after_spec (s : Heap T) (l : Nat) (pre post : List (Nat × T)) (v : T)
    (h : IsList s l (pre ++ post)) :
    ∃ s2 n, insert_after s (posAfter l pre) v = some (s2, posAfter l (pre ++ [(n, v)])) ∧
      n ∉ (pre ++ post).map Prod.fst ∧
      IsList s2 l (pre ++ (n, v) :: post) ∧
      toList s2 l ((pre ++ post).length + 2)
        = some (pre.map Prod.snd ++ v :: post.map Prod.snd) ∧
      (pre ++ (n, v) :: post).length = (pre ++ post).length + 1 ∧
      deref s2 (posAfter l (pre ++ [(n, v)])) = some v ∧
      next s2 (posAfter l (pre ++ [(n, v)])) = some (posOf post) := by
  obtain ⟨s2, e1, e2, e3, e4, e5⟩ := emplace_after_isList s l pre post v h
  have hl : posAfter l (pre ++ [(s.brk, v)]) = ⟨some (.node s.brk)⟩ := by
    simp [posAfter, lastLoc_append, lastLoc]
  obtain ⟨m, hpre, hn, hv, hpost⟩ := (path_append s2 _ pre _ none).1 e2.1
  refine ⟨s2, s.brk, by rw [hl]; exact e1, ?_, e2, ?_, by simp; omega, ?_, ?_⟩
  · intro hm
    obtain ⟨c, hc, e⟩ := List.mem_map.1 hm
    exact Nat.lt_irrefl _ (e ▸ h.2.2 c hc)
  · rw [toList_of_isList s2 l _ _ e2 (by simp; omega)]
    simp
  · rw [hl]
    exact hv
  · rw [hl]
    simp [next, posOf, path_first s2 _ post none hpost]

theorem insert_after_spec_witness :
    IsList exHeap 0 ([(0, 1)] ++ [(1, 2), (2, 3)]) ∧
    ∃ s2 n, insert_after exHeap (posAfter 0 [(0, 1)]) 99
        = some (s2, posAfter 0 ([(0, 1)] ++ [(n, 99)])) ∧
      n ∉ ([(0, 1)] ++ [(1, 2), (2, 3)]).map Prod.fst ∧
      IsList s2 0 ([(0, 1)] ++ (n, 99) :: [(1, 2), (2, 3)]) ∧
      toList s2 0 (([(0, 1)] ++ [(1, 2), (2, 3)]).length + 2)
        = some (([(0, 1)] : List (Nat × Nat)).map Prod.snd
            ++ 99 :: ([(1, 2), (2, 3)] : List (Nat × Nat)).map Prod.snd) ∧
      ([(0, 1)] ++ (n, 99) :: [(1, 2), (2, 3)]).length
        = ([(0, 1)] ++ [(1, 2), (2, 3)]).length + 1 ∧
      deref s2 (posAfter 0 ([(0, 1)] ++ [(n, 99)])) = some 99 ∧
      next s2 (posAfter 0 ([(0, 1)] ++ [(n, 99)])) = some (posOf [(1, 2), (2, 3)]) :=
  ⟨by decide, insert_after_spec exHeap 0 [(0, 1)] [(1, 2), (2, 3)] 99 (by decide)⟩

/-- C4: for a list `l` holding `pre ++ c :: post` and the position `pos` of the last cell
of `pre`, so that `c` is the successor node of `pos`, `erase_after(pos)` succeeds, destroys
the node of `c` and nothing else of the list, which then holds `pre ++ post` (one element
fewer, the others in their order), and returns the position of the new successor of `pos`,
the first cell of `post`, which is `end()` when `post` is empty. -/
theorem erase_after_spec (s : Heap T) (l : Nat) (pre post : List (Nat × T)) (c : Nat × T)
    (h : IsList s l (pre ++ c :: post)) :
    ∃ s2, erase_after s (posAfter l pre) = some (s2, posOf post) ∧
      IsList s2 l (pre ++ post) ∧
      toList s2 l (pre ++ c :: post).length = some (pre.map Prod.snd ++ post.map Prod.snd) ∧
      (pre ++ post).length + 1 = (pre ++ c :: post).length ∧
      s2.nodes c.1 = none ∧
      next s2 (posAfter l pre) = some (posOf post) ∧
      (post = [] → posOf post = end_) := by
  obtain ⟨s2, e1, e2, e3, e4, e5, e6⟩ := erase_after_isList s l pre post c h
  obtain ⟨m, hpre, hpost⟩ := (path_append s2 _ pre _ none).1 e2.1
  refine ⟨s2, e1, e2, ?_, by simp; omega, ?_, ?_, ?_⟩
  · rw [toList_of_isList s2 l _ _ e2 (by simp)]
    simp
  · simpa [value] using e4
  · simp [next, posAfter, posOf, path_first s2 _ post none hpost]
  · rintro rfl
    rfl

theorem erase_after_spec_witness :
    IsList exHeap 0 ([(0, 1)] ++ (1, 2) :: [(2, 3)]) ∧
    ∃ s2, erase_after exHeap (posAfter 0 [(0, 1)]) = some (s2, posOf [(2, 3)]) ∧
      IsList s2 0 ([(0, 1)] ++ [(2, 3)]) ∧
      toList s2 0 ([(0, 1)] ++ (1, 2) :: [(2, 3)]).length
        = some (([(0, 1)] : List (Nat × Nat)).map Prod.snd
            ++ ([(2, 3)] : List (Nat × Nat)).map Prod.snd) ∧
      ([(0, 1)] ++ [(2, 3)]).length + 1 = ([(0, 1)] ++ (1, 2) :: [(2, 3)]).length ∧
      s2.nodes (1, 2).1 = none ∧
      next s2 (posAfter 0 [(0, 1)]) = some (posOf [(2, 3)]) ∧
      (([(2, 3)] : List (Nat × Nat)) = [] → posOf [(2, 3)] = end_) :=
  ⟨by decide, erase_after_spec exHeap 0 [(0, 1)] [(2, 3)] (1, 2) (by decide)⟩

/-- C5: for a list `l` holding `pre ++ post`, the position `pos` of the last cell of `pre`
and a value `v`, `insert_after(pos, v)` followed by `erase_after(pos)` both succeed and
leave the list holding `pre ++ post` again: the same nodes with the same values in the same
order, so the traversal is the original sequence. -/
theorem insert_erase_round_trip (s : Heap T) (l : Nat) (pre post : List (Nat × T)) (v : T)
    (h : IsList s l (pre ++ post)) :
    ∃ s2 it s3 it2, insert_after s (posAfter l pre) v = some (s2, it) ∧
      erase_after s2 (posAfter l pre) = some (s3, it2) ∧
      IsList s3 l (pre ++ post) ∧
      toList s3 l ((pre ++ post).length + 1) = some ((pre ++ post).map Prod.snd) ∧
      toList s3 l ((pre ++ post).length + 1) = toList s l ((pre ++ post).length + 1) := by
  obtain ⟨s2, e1, e2, -⟩ := emplace_after_isList s l pre post v h
  obtain ⟨s3, f1, f2, -⟩ := erase_after_isList s2 l pre post (s.brk, v) e2
  refine ⟨s2, _, s3, _, e1, f1, f2, ?_, ?_⟩
  · exact toList_of_isList s3 l _ _ f2 (by simp)
  · rw [toList_of_isList s3 l _ _ f2 (by simp), toList_of_isList s l _ _ h (by simp)]

theorem insert_erase_round_trip_witness :
    IsList exHeap 0 ([(0, 1)] ++ [(1, 2), (2, 3)]) ∧
    ∃ s2 it s3 it2, insert_after exHeap (posAfter 0 [(0, 1)]) 99 = some (s2, it) ∧
      erase_after s2 (posAfter 0 [(0, 1)]) = some (s3, it2) ∧
      IsList s3 0 ([(0, 1)] ++ [(1, 2), (2, 3)]) ∧
      toList s3 0 (([(0, 1)] ++ [(1, 2), (2, 3)]).length + 1)
        = some (([(0, 1)] ++ [(1, 2), (2, 3)] : List (Nat × Nat)).map Prod.snd) ∧
      toList s3 0 (([(0, 1)] ++ [(1, 2), (2, 3)]).length + 1)
        = toList exHeap 0 (([(0, 1)] ++ [(1, 2), (2, 3)]).length + 1) :=
  ⟨by decide, insert_erase_round_trip exHeap 0 [(0, 1)] [(1, 2), (2, 3)] 99 (by decide)⟩

/-- C6, the code at a failing input: `forward_list<int> l; l.push_front(5);` on the empty
list `2`.  The inner call `emplace_after(before_begin(), 5)` does link a node holding `5`
at the front, but `emplace_front` has to return its result, an `iterator`, as a `T &`: the
function is ill-formed, `push_front` has no run, and no sequence of pushes yields a list
whose traversal or `front()` could be observed. -/
theorem push_front_is_ill_formed :
    IsList exHeap 2 [] ∧
    (emplace_after exHeap (before_begin 2) 5).bind (fun r => toList r.1 2 2) = some [5] ∧
    (emplace_after exHeap (before_begin 2) 5).bind (fun r => front r.1 2) = some 5 ∧
    (emplace_front exHeap 2 5).isNone = true ∧
    (push_front exHeap 2 5).isNone = true ∧
    (push_front_all 2 [5, 6, 7] exHeap).isNone = true ∧
    ¬ ((push_front_all 2 [5, 6, 7] exHeap).bind (fun s => toList s 2 4) = some [7, 6, 5]) := by
  decide

/-- C7: for a list `l` holding `cells` (length `m`) and every `n`, `resize(n)` succeeds
(given fuel for its erasing loop) and leaves the first `n` cells followed by new nodes
holding `n - m` default values: the first `n` original elements when `n ≤ m`, all `m`
original elements followed by `n - m` default elements when `n > m`; the length is `n`. -/
theorem resize_spec [Inhabited T] (s : Heap T) (l : Nat) (cells : List (Nat × T))
    (n fuel : Nat) (h : IsList s l cells) (hf : cells.length - n < fuel) :
    ∃ s2 new, resize fuel s l n = some s2 ∧
      IsList s2 l (cells.take n ++ new) ∧
      new.map Prod.snd = List.replicate (n - cells.length) default ∧
      (cells.take n ++ new).length = n ∧
      (n ≤ cells.length → toList s2 l (n + 1) = some ((cells.map Prod.snd).take n)) ∧
      (cells.length < n → toList s2 l (n + 1)
        = some (cells.map Prod.snd ++ List.replicate (n - cells.length) default)) := by
  have h0 : IsList s l (([] : List (Nat × T)) ++ cells) := h
  have hw := resize_walk_spec s l n [] cells h0
  have h1 : IsList s l (cells.take n ++ (cells.drop n ++ [])) := by simpa using h
  obtain ⟨s1, e1, e2, -⟩ := erase_after_loop_isList l (cells.take n) [] (cells.drop n) s
    ⟨none⟩ fuel h1 (by simpa using hf)
  obtain ⟨s2, new, f1, f2, f3⟩ := emplace_loop_isList l [] default (n - cells.length) s1
    (cells.take n) e2
  have f4 : IsList s2 l (cells.take n ++ new) := by simpa using f2
  have hlen : (cells.take n ++ new).length = n := by
    have := congrArg List.length f3
    simp only [List.length_map, List.length_replicate] at this
    simp only [List.length_append, List.length_take, this]
    omega
  have ht := toList_of_isList s2 l _ (n + 1) f4 (by omega)
  refine ⟨s2, new, ?_, f4, f3, hlen, ?_, ?_⟩
  · have hb : before_begin l = posAfter l ([] : List (Nat × T)) := rfl
    have hp : posOf ([] : List (Nat × T)) = end_ := rfl
    simp only [List.nil_append] at hw
    simp only [resize, hb, hw, erase_after_range, ← hp, e1, f1]
    rfl
  · intro hle
    rw [ht, List.map_append, f3, Nat.sub_eq_zero_of_le hle]
    simp [List.map_take]
  · intro hlt
    rw [ht, List.map_append, f3, List.take_of_length_le (le_of_lt hlt)]

theorem resize_spec_witness :
    IsList exHeap 0 [(0, 1), (1, 2), (2, 3)] ∧
    ([(0, 1), (1, 2), (2, 3)] : List (Nat × Nat)).length - 5 < 1 ∧
    ∃ s2 new, resize 1 exHeap 0 5 = some s2 ∧
      IsList s2 0 (([(0, 1), (1, 2), (2, 3)] : List (Nat × Nat)).take 5 ++ new) ∧
      new.map Prod.snd
        = List.replicate (5 - ([(0, 1), (1, 2), (2, 3)] : List (Nat × Nat)).length) default ∧
      (([(0, 1), (1, 2), (2, 3)] : List (Nat × Nat)).take 5 ++ new).length = 5 ∧
      (5 ≤ ([(0, 1), (1, 2), (2, 3)] : List (Nat × Nat)).length → toList s2 0 (5 + 1)
        = some ((([(0, 1), (1, 2), (2, 3)] : List (Nat × Nat)).map Prod.snd).take 5)) ∧
      (([(0, 1), (1, 2), (2, 3)] : List (Nat × Nat)).length < 5 → toList s2 0 (5 + 1)
        = some (([(0, 1), (1, 2), (2, 3)] : List (Nat × Nat)).map Prod.snd
          ++ List.replicate (5 - ([(0, 1), (1, 2), (2, 3)] : List (Nat × Nat)).length)
            default)) :=
  ⟨by decide, by decide,
    resize_spec exHeap 0 [(0, 1), (1, 2), (2, 3)] 5 1 (by decide) (by decide)⟩

/-- C8: for a list `l` holding `pre ++ mid ++ post`, with `first` the position of the last
cell of `pre` and `last` the position of the first cell of `post` (`end()` when `post` is
empty), `erase_after(first, last)` terminates: with any fuel above the length of `mid` it
returns, and the list then holds exactly `pre ++ post`, in order. -/
theorem erase_after_range_spec (s : Heap T) (l : Nat) (pre mid post : List (Nat × T))
    (fuel : Nat) (h : IsList s l (pre ++ (mid ++ post))) (hf : mid.length < fuel) :
    ∃ s2 it, erase_after_range fuel s (posAfter l pre) (posOf post) = some (s2, it) ∧
      IsList s2 l (pre ++ post) ∧
      toList s2 l ((pre ++ post).length + 1)
        = some (pre.map Prod.snd ++ post.map Prod.snd) := by
  obtain ⟨s2, e1, e2, -⟩ := erase_after_loop_isList l pre post mid s ⟨none⟩ fuel h hf
  refine ⟨s2, _, e1, e2, ?_⟩
  rw [toList_of_isList s2 l _ _ e2 (by simp)]
  simp

theorem erase_after_range_spec_witness :
    IsList exHeap 0 (([] : List (Nat × Nat)) ++ ([(0, 1), (1, 2)] ++ [(2, 3)])) ∧
    ([(0, 1), (1, 2)] : List (Nat × Nat)).length < 3 ∧
    ∃ s2 it, erase_after_range 3 exHeap (posAfter 0 ([] : List (Nat × Nat))) (posOf [(2, 3)]) = some (s2, it) ∧
      IsList s2 0 (([] : List (Nat × Nat)) ++ [(2, 3)]) ∧
      toList s2 0 (([] ++ [(2, 3)] : List (Nat × Nat)).length + 1)
        = some (([] : List (Nat × Nat)).map Prod.snd
            ++ ([(2, 3)] : List (Nat × Nat)).map Prod.snd) :=
  ⟨by decide, by decide,
    erase_after_range_spec exHeap 0 [] [(0, 1), (1, 2)] [(2, 3)] 3 (by decide) (by decide)⟩

/-- C9, against the claim as stated: in the list `{1, 2, 3}` with `first = before_begin()`
and `last` the position of `3`, `erase_after(first, last)` returns the position `last`
itself; the successor of the returned position is `end()`, not `last`, so it is not the
node just before `last` (that node is the sentinel, `first`). -/
theorem erase_after_range_result_counterexample :
    (erase_after_range 3 exHeap (posAfter 0 ([] : List (Nat × Nat))) (posOf [(2, 3)])).map Prod.snd
        = some (posOf [(2, 3)]) ∧
      (erase_after_range 3 exHeap (posAfter 0 ([] : List (Nat × Nat))) (posOf [(2, 3)])).bind
        (fun r => next r.1 r.2) = some end_ ∧
      ¬ ((erase_after_range 3 exHeap (posAfter 0 ([] : List (Nat × Nat))) (posOf [(2, 3)])).bind
        (fun r => next r.1 r.2) = some (posOf [(2, 3)])) ∧
      ¬ ((erase_after_range 3 exHeap (posAfter 0 ([] : List (Nat × Nat))) (posOf [(2, 3)])).map Prod.snd
        = some (posAfter 0 ([] : List (Nat × Nat)))) := by
  decide

/-- C9, amended: for a list `l` holding `pre ++ mid ++ post` with `mid` not empty,
`erase_after(first, last)` returns a position equal to `last` (the first cell of `post`,
`end()` when `post` is empty), which after the erasures is the successor of `first`. -/
theorem erase_after_range_result (s : Heap T) (l : Nat) (pre mid post : List (Nat × T))
    (fuel : Nat) (h : IsList s l (pre ++ (mid ++ post))) (hf : mid.length < fuel)
    (hm : mid ≠ []) :
    ∃ s2, erase_after_range fuel s (posAfter l pre) (posOf post) = some (s2, posOf post) ∧
      next s2 (posAfter l pre) = some (posOf post) := by
  obtain ⟨s2, e1, e2, -⟩ := erase_after_loop_isList l pre post mid s ⟨none⟩ fuel h hf
  refine ⟨s2, ?_, next_posAfter s2 l pre post e2⟩
  rw [erase_after_range, e1]
  cases mid with
  | nil => exact absurd rfl hm
  | cons c rest => simp

theorem erase_after_range_result_witness :
    IsList exHeap 0 (([] : List (Nat × Nat)) ++ ([(0, 1), (1, 2)] ++ [(2, 3)])) ∧
    ([(0, 1), (1, 2)] : List (Nat × Nat)).length < 3 ∧
    ([(0, 1), (1, 2)] : List (Nat × Nat)) ≠ [] ∧
    ∃ s2, erase_after_range 3 exHeap (posAfter 0 ([] : List (Nat × Nat))) (posOf [(2, 3)])
        = some (s2, posOf [(2, 3)]) ∧
      next s2 (posAfter 0 ([] : List (Nat × Nat))) = some (posOf [(2, 3)]) :=
  ⟨by decide, by decide, by decide,
    erase_after_range_result exHeap 0 [] [(0, 1), (1, 2)] [(2, 3)] 3 (by decide) (by decide)
      (by decide)⟩

/-- C10: for two distinct lists, `a` holding `preA ++ c :: postA` and `b` holding
`preB ++ postB` (no node in common), with `it` the position of the last cell of `preA`
and `pos` the position of the last cell of `preB`, the single-node
`splice_after(pos, other, it)` succeeds, takes the node of `c` out of `a`, which then holds
`preA ++ postA`, and links that same node right after `pos` in `b`, which then holds
`preB ++ c :: postB`; it returns the position of the moved node. -/
theorem splice_after_single_spec (s : Heap T) (a b : Nat)
    (preA postA preB postB : List (Nat × T)) (c : Nat × T)
    (hA : IsList s a (preA ++ c :: postA)) (hB : IsList s b (preB ++ postB)) (hab : a ≠ b)
    (hd : ∀ x ∈ preA ++ c :: postA, ∀ y ∈ preB ++ postB, x.1 ≠ y.1) :
    ∃ s2, splice_after s (posAfter b preB) (posAfter a preA)
        = some (s2, posAfter b (preB ++ [c])) ∧
      posAfter b (preB ++ [c]) = ⟨some (.node c.1)⟩ ∧
      IsList s2 a (preA ++ postA) ∧ IsList s2 b (preB ++ c :: postB) ∧
      toList s2 a (preA ++ c :: postA).length
        = some (preA.map Prod.snd ++ postA.map Prod.snd) ∧
      toList s2 b ((preB ++ postB).length + 2)
        = some (preB.map Prod.snd ++ c.2 :: postB.map Prod.snd) ∧
      deref s2 (posAfter b (preB ++ [c])) = some c.2 ∧
      next s2 (posAfter b (preB ++ [c])) = some (posOf postB) := by
  obtain ⟨s2, e1, e2, e3, -⟩ := splice_after_isList s a b preA postA preB postB c hA hB hab hd
  have hl := posAfter_snoc b preB c
  have e4 : IsList s2 b ((preB ++ [c]) ++ postB) := by simpa using e3
  obtain ⟨m, hpre, hn, hv, hpost⟩ := (path_append s2 _ preB _ none).1 e3.1
  refine ⟨s2, by rw [hl]; exact e1, hl, e2, e3, ?_, ?_, ?_, next_posAfter s2 b _ postB e4⟩
  · rw [toList_of_isList s2 a _ _ e2 (by simp)]
    simp
  · rw [toList_of_isList s2 b _ _ e3 (by simp; omega)]
    simp
  · rw [hl]
    exact hv

theorem splice_after_single_spec_witness :
    IsList exHeap 0 ([(0, 1)] ++ (1, 2) :: [(2, 3)]) ∧
    IsList exHeap 1 (([] : List (Nat × Nat)) ++ [(3, 4)]) ∧ (0 : Nat) ≠ 1 ∧
    (∀ x ∈ [(0, 1)] ++ (1, 2) :: [(2, 3)], ∀ y ∈ ([] : List (Nat × Nat)) ++ [(3, 4)],
      x.1 ≠ y.1) ∧
    ∃ s2, splice_after exHeap (posAfter 1 ([] : List (Nat × Nat))) (posAfter 0 [(0, 1)])
        = some (s2, posAfter 1 ([] ++ [(1, 2)])) ∧
      posAfter 1 (([] : List (Nat × Nat)) ++ [(1, 2)]) = ⟨some (.node (1, 2).1)⟩ ∧
      IsList s2 0 ([(0, 1)] ++ [(2, 3)]) ∧ IsList s2 1 ([] ++ (1, 2) :: [(3, 4)]) ∧
      toList s2 0 ([(0, 1)] ++ (1, 2) :: [(2, 3)]).length
        = some (([(0, 1)] : List (Nat × Nat)).map Prod.snd
            ++ ([(2, 3)] : List (Nat × Nat)).map Prod.snd) ∧
      toList s2 1 ((([] : List (Nat × Nat)) ++ [(3, 4)]).length + 2)
        = some (([] : List (Nat × Nat)).map Prod.snd
            ++ (1, 2).2 :: ([(3, 4)] : List (Nat × Nat)).map Prod.snd) ∧
      deref s2 (posAfter 1 (([] : List (Nat × Nat)) ++ [(1, 2)])) = some (1, 2).2 ∧
      next s2 (posAfter 1 (([] : List (Nat × Nat)) ++ [(1, 2)])) = some (posOf [(3, 4)]) :=
  ⟨by decide, by decide, by decide, by decide,
    splice_after_single_spec exHeap 0 1 [(0, 1)] [(2, 3)] [] [(3, 4)] (1, 2)
      (by decide) (by decide) (by decide) (by decide)⟩

/-- C13: for two lists, `a` holding `cellsA` and `b` holding `cellsB`, after `a.swap(b)`
the list `a` holds the nodes of `cellsB` and `b` those of `cellsA`, so each traversal yields
the other list's original sequence; the store of nodes is untouched (no value and no
successor link of a node changes) and no head link other than the two changes. -/
theorem swap_spec (s : Heap T) (a b : Nat) (cellsA cellsB : List (Nat × T))
    (hA : IsList s a cellsA) (hB : IsList s b cellsB) :
    IsList (swap s a b) a cellsB ∧ IsList (swap s a b) b cellsA ∧
      toList (swap s a b) a (cellsB.length + 1) = some (cellsB.map Prod.snd) ∧
      toList (swap s a b) b (cellsA.length + 1) = some (cellsA.map Prod.snd) ∧
      (swap s a b).nodes = s.nodes ∧ (swap s a b).brk = s.brk ∧
      (∀ l, l ≠ a → l ≠ b → (swap s a b).heads l = s.heads l) := by
  have hb : (swap s a b).brk = s.brk := by simp [swap, brk_setNext]
  have h1 : IsList (swap s a b) a cellsB :=
    ⟨path_congr s _ (.head b) (.head a) cellsB none (swap_getNext_head s a b).1
      (fun c _ => ⟨swap_getNext_node s a b c.1, swap_value s a b c.1⟩) hB.1, hB.2.1,
      fun c hc => hb ▸ hB.2.2 c hc⟩
  have h2 : IsList (swap s a b) b cellsA :=
    ⟨path_congr s _ (.head a) (.head b) cellsA none (swap_getNext_head s a b).2
      (fun c _ => ⟨swap_getNext_node s a b c.1, swap_value s a b c.1⟩) hA.1, hA.2.1,
      fun c hc => hb ▸ hA.2.2 c hc⟩
  refine ⟨h1, h2, toList_of_isList _ a _ _ h1 (by simp), toList_of_isList _ b _ _ h2 (by simp),
    ?_, hb, ?_⟩
  · funext k
    exact nodes_eq_of s _ k (swap_getNext_node s a b k) (swap_value s a b k)
  · intro l hla hlb
    apply heads_eq_of
    simp [swap, getNext_setNext, hla, hlb]

theorem swap_spec_witness :
    IsList exHeap 0 [(0, 1), (1, 2), (2, 3)] ∧ IsList exHeap 1 [(3, 4)] ∧
    IsList (swap exHeap 0 1) 0 [(3, 4)] ∧ IsList (swap exHeap 0 1) 1 [(0, 1), (1, 2), (2, 3)] ∧
      toList (swap exHeap 0 1) 0 (([(3, 4)] : List (Nat × Nat)).length + 1)
        = some (([(3, 4)] : List (Nat × Nat)).map Prod.snd) ∧
      toList (swap exHeap 0 1) 1 (([(0, 1), (1, 2), (2, 3)] : List (Nat × Nat)).length + 1)
        = some (([(0, 1), (1, 2), (2, 3)] : List (Nat × Nat)).map Prod.snd) ∧
      (swap exHeap 0 1).nodes = exHeap.nodes ∧ (swap exHeap 0 1).brk = exHeap.brk ∧
      (∀ l, l ≠ 0 → l ≠ 1 → (swap exHeap 0 1).heads l = exHeap.heads l) :=
  ⟨by decide, by decide,
    swap_spec exHeap 0 1 [(0, 1), (1, 2), (2, 3)] [(3, 4)] (by decide) (by decide)⟩

/-- C14: constructing the list object `l` from the range (or the literal sequence) `vs`
succeeds in every state; the new list holds one node per value, in order, its traversal
from `begin()` to `end()` yields exactly `vs`, with the same length, and an empty `vs`
gives an empty list. -/
theorem forward_list_range_spec (s : Heap T) (l : Nat) (vs : List T) :
    ∃ s2 cells, forward_list_range s l vs = some s2 ∧ forward_list_init s l vs = some s2 ∧
      IsList s2 l cells ∧ cells.map Prod.snd = vs ∧ cells.length = vs.length ∧
      toList s2 l (vs.length + 1) = some vs ∧
      (vs = [] → empty s2 l = some true) := by
  have h0 : IsList (new_list s l) l (([] : List (Nat × T)) ++ []) := isList_new_list s l
  obtain ⟨s2, new, e1, e2, e3, -⟩ := range_loop_isList l [] vs (new_list s l) [] h0
  have e4 : IsList s2 l new := by simpa using e2
  have hlen : new.length = vs.length := by
    have := congrArg List.length e3
    simpa using this
  have hrun : forward_list_range s l vs = some s2 := by
    have hb : before_begin l = posAfter l ([] : List (Nat × T)) := rfl
    simp [forward_list_range, hb, e1]
  refine ⟨s2, new, hrun, hrun, e4, e3, hlen, ?_, ?_⟩
  · rw [toList_of_isList s2 l new _ e4 (by omega), e3]
  · rintro rfl
    have : new = [] := by simpa using e3
    subst this
    exact empty_of_isList_nil s2 l e4

/-- C16: for a list `l` holding `pre ++ post`, with `first` the position of the last cell
of `pre` and `last` the position of the first cell of `post` (nothing between them),
`erase_after(first, last)` returns at once: the state is unchanged and the result is the
default position, which compares equal to `end()`, also when `post` is not empty and
`last`, which references its first node, is not `end()`. -/
theorem erase_after_range_adjacent (s : Heap T) (l : Nat) (pre post : List (Nat × T))
    (fuel : Nat) (h : IsList s l (pre ++ post)) (hf : 0 < fuel) :
    erase_after_range fuel s (posAfter l pre) (posOf post) = some (s, ⟨none⟩) ∧
      decide ((⟨none⟩ : iterator) = end_) = true ∧
      (post ≠ [] → posOf post ≠ end_) := by
  obtain ⟨f, rfl⟩ : ∃ f, fuel = f + 1 := ⟨fuel - 1, by omega⟩
  have hn := next_posAfter s l pre post h
  refine ⟨by simp [erase_after_range, erase_after_loop, hn], by decide, ?_⟩
  intro hp
  cases post with
  | nil => exact absurd rfl hp
  | cons c rest => simp [posOf, firstPtr, end_]

theorem erase_after_range_adjacent_witness :
    IsList exHeap 0 ([(0, 1)] ++ [(1, 2), (2, 3)]) ∧ 0 < 1 ∧
    erase_after_range 1 exHeap (posAfter 0 [(0, 1)]) (posOf [(1, 2), (2, 3)])
        = some (exHeap, ⟨none⟩) ∧
      decide ((⟨none⟩ : iterator) = end_) = true ∧
      (([(1, 2), (2, 3)] : List (Nat × Nat)) ≠ [] → posOf [(1, 2), (2, 3)] ≠ end_) :=
  ⟨by decide, by decide,
    erase_after_range_adjacent exHeap 0 [(0, 1)] [(1, 2), (2, 3)] 1 (by decide) (by decide)⟩

/-- C11: for two distinct lists, `a` holding `cellsA` and `b` holding `preB ++ postB` (no
node in common), with `pos` the position of the last cell of `preB` (the last position of
`b` when `postB` is empty), the whole-list `splice_after(pos, other)` succeeds given fuel
above the length of `a`, leaves `a` empty and leaves `b` holding `preB`, then all the cells
of `a` in their order, then `postB`. -/
theorem splice_after_all_spec (s : Heap T) (a b : Nat) (cellsA preB postB : List (Nat × T))
    (fuel : Nat) (hA : IsList s a cellsA) (hB : IsList s b (preB ++ postB)) (hab : a ≠ b)
    (hd : ∀ x ∈ cellsA, ∀ y ∈ preB ++ postB, x.1 ≠ y.1) (hf : cellsA.length < fuel) :
    ∃ s2 it, splice_after_all fuel s (posAfter b preB) a = some (s2, it) ∧
      IsList s2 a [] ∧ IsList s2 b (preB ++ cellsA ++ postB) ∧
      empty s2 a = some true ∧ toList s2 a 1 = some [] ∧
      toList s2 b ((preB ++ cellsA ++ postB).length + 1)
        = some (preB.map Prod.snd ++ cellsA.map Prod.snd ++ postB.map Prod.snd) := by
  have hA2 : IsList s a (([] : List (Nat × T)) ++ (cellsA ++ [])) := by simpa using hA
  have hd2 : ∀ x ∈ ([] : List (Nat × T)) ++ (cellsA ++ []), ∀ y ∈ preB ++ postB,
      x.1 ≠ y.1 := by
    intro x hx y hy
    exact hd x (by simpa using hx) y hy
  obtain ⟨s2, it, e1, -, e2⟩ :=
    splice_after_range_isList s a b [] cellsA [] preB postB fuel hA2 hB hab hd2 hf
  have hrun : splice_after_all fuel s (posAfter b preB) a = some (s2, it) := e1
  have key : IsList s2 a [] ∧ IsList s2 b (preB ++ cellsA ++ postB) := by
    rcases e2 with ⟨rfl, -, ha, hb⟩ | ⟨-, -, ha, hb⟩
    · exact ⟨ha, by simpa using hb⟩
    · exact ⟨by simpa using ha, hb⟩
  refine ⟨s2, it, hrun, key.1, key.2, empty_of_isList_nil s2 a key.1,
    toList_of_isList s2 a [] 1 key.1 (by simp), ?_⟩
  rw [toList_of_isList s2 b _ _ key.2 (by simp)]
  simp

theorem splice_after_all_spec_witness :
    IsList exHeap 1 [(3, 4)] ∧ IsList exHeap 0 ([(0, 1)] ++ [(1, 2), (2, 3)]) ∧
    (1 : Nat) ≠ 0 ∧
    (∀ x ∈ ([(3, 4)] : List (Nat × Nat)), ∀ y ∈ [(0, 1)] ++ [(1, 2), (2, 3)], x.1 ≠ y.1) ∧
    ([(3, 4)] : List (Nat × Nat)).length < 2 ∧
    ∃ s2 it, splice_after_all 2 exHeap (posAfter 0 [(0, 1)]) 1 = some (s2, it) ∧
      IsList s2 1 [] ∧ IsList s2 0 ([(0, 1)] ++ [(3, 4)] ++ [(1, 2), (2, 3)]) ∧
      empty s2 1 = some true ∧ toList s2 1 1 = some [] ∧
      toList s2 0 (([(0, 1)] ++ [(3, 4)] ++ [(1, 2), (2, 3)] : List (Nat × Nat)).length + 1)
        = some (([(0, 1)] : List (Nat × Nat)).map Prod.snd
            ++ ([(3, 4)] : List (Nat × Nat)).map Prod.snd
            ++ ([(1, 2), (2, 3)] : List (Nat × Nat)).map Prod.snd) :=
  ⟨by decide, by decide, by decide, by decide, by decide,
    splice_after_all_spec exHeap 1 0 [(3, 4)] [(0, 1)] [(1, 2), (2, 3)] 2
      (by decide) (by decide) (by decide) (by decide) (by decide)⟩

/-- C12: for two distinct lists, `a` holding `preA ++ mid ++ postA` and `b` holding
`preB ++ postB` (no node in common), the range `splice_after(pos, other, first, last)` with
`first` after `preA`, `last` at `postA` and `pos` after `preB` succeeds on either branch,
and afterwards the two lists together hold exactly the nodes they held before: the cells
of `a` and `b` together are a permutation of the original ones, so are the elements, and
the total count is the same. -/
theorem splice_after_range_conserves (s : Heap T) (a b : Nat)
    (preA mid postA preB postB : List (Nat × T)) (fuel : Nat)
    (hA : IsList s a (preA ++ (mid ++ postA))) (hB : IsList s b (preB ++ postB))
    (hab : a ≠ b) (hd : ∀ x ∈ preA ++ (mid ++ postA), ∀ y ∈ preB ++ postB, x.1 ≠ y.1)
    (hf : mid.length < fuel) :
    ∃ s2 it cellsA2 cellsB2,
      splice_after_range fuel s (posAfter b preB) (posAfter a preA) (posOf postA)
        = some (s2, it) ∧
      IsList s2 a cellsA2 ∧ IsList s2 b cellsB2 ∧
      (cellsA2 ++ cellsB2).Perm ((preA ++ (mid ++ postA)) ++ (preB ++ postB)) ∧
      ((cellsA2 ++ cellsB2).map Prod.snd).Perm
        (((preA ++ (mid ++ postA)) ++ (preB ++ postB)).map Prod.snd) ∧
      cellsA2.length + cellsB2.length
        = (preA ++ (mid ++ postA)).length + (preB ++ postB).length := by
  obtain ⟨s2, it, e1, -, e2⟩ :=
    splice_after_range_isList s a b preA mid postA preB postB fuel hA hB hab hd hf
  rcases e2 with ⟨rfl, -, ha, hb⟩ | ⟨-, -, ha, hb⟩
  · have hp : (preA ++ (preB ++ (mid ++ postA))).Perm
        ((preA ++ (mid ++ postA)) ++ (preB ++ [])) := by
      rw [← Multiset.coe_eq_coe]
      simp only [← Multiset.coe_add, List.append_nil]
      abel
    refine ⟨s2, it, _, _, e1, ha, hb, hp, hp.map _, ?_⟩
    simp only [List.length_append, List.length_nil]
    omega
  · have hp : ((preA ++ postA) ++ (preB ++ mid ++ postB)).Perm
        ((preA ++ (mid ++ postA)) ++ (preB ++ postB)) := by
      rw [← Multiset.coe_eq_coe]
      simp only [← Multiset.coe_add]
      abel
    refine ⟨s2, it, _, _, e1, ha, hb, hp, hp.map _, ?_⟩
    simp only [List.length_append, List.length_nil]
    omega

theorem splice_after_range_conserves_witness :
    IsList exHeap 0 (([] : List (Nat × Nat)) ++ ([(0, 1), (1, 2)] ++ [(2, 3)])) ∧
    IsList exHeap 1 ([(3, 4)] ++ []) ∧ (0 : Nat) ≠ 1 ∧
    (∀ x ∈ ([] : List (Nat × Nat)) ++ ([(0, 1), (1, 2)] ++ [(2, 3)]),
      ∀ y ∈ ([(3, 4)] : List (Nat × Nat)) ++ [], x.1 ≠ y.1) ∧
    ([(0, 1), (1, 2)] : List (Nat × Nat)).length < 3 ∧
    ∃ s2 it cellsA2 cellsB2,
      splice_after_range 3 exHeap (posAfter 1 [(3, 4)])
        (posAfter 0 ([] : List (Nat × Nat))) (posOf [(2, 3)]) = some (s2, it) ∧
      IsList s2 0 cellsA2 ∧ IsList s2 1 cellsB2 ∧
      (cellsA2 ++ cellsB2).Perm
        ((([] : List (Nat × Nat)) ++ ([(0, 1), (1, 2)] ++ [(2, 3)])) ++ ([(3, 4)] ++ [])) ∧
      ((cellsA2 ++ cellsB2).map Prod.snd).Perm
        (((([] : List (Nat × Nat)) ++ ([(0, 1), (1, 2)] ++ [(2, 3)]))
          ++ ([(3, 4)] ++ [])).map Prod.snd) ∧
      cellsA2.length + cellsB2.length
        = (([] : List (Nat × Nat)) ++ ([(0, 1), (1, 2)] ++ [(2, 3)])).length
          + (([(3, 4)] : List (Nat × Nat)) ++ []).length :=
  ⟨by decide, by decide, by decide, by decide, by decide,
    splice_after_range_conserves exHeap 0 1 [] [(0, 1), (1, 2)] [(2, 3)] [(3, 4)] [] 3
      (by decide) (by decide) (by decide) (by decide) (by decide)⟩

/-- C15, the code at a failing input: a `forward_list<bool>` that is empty, a `bool v`
holding `false` at the address `7`, and the call `resize(2, &v)` (the parameter is declared
`T const * value`).  The two appended nodes are initialised from the pointer, which is not
null, so the list becomes `{true, true}`; the claim says two elements equal to `v`,
`{false, false}`. -/
theorem resize_value_builds_from_pointer :
    IsList exHeapB 0 [] ∧
    (resize_value bool_of_pointer 1 exHeapB 0 2 (some 7)).bind (fun s => toList s 0 3)
      = some [true, true] ∧
    ¬ ((resize_value bool_of_pointer 1 exHeapB 0 2 (some 7)).bind (fun s => toList s 0 3)
      = some [false, false]) := by
  decide

/-- C17, the code at a failing input: list `0` holds `{1, 2, 3}` and `pos` is the position
of `3`, its last position; `insert_after(pos, 2, 9)` makes the list `{1, 2, 3, 9, 9}` and
returns `pos` itself: the returned position holds `3` and is followed by the first
inserted node, while the last inserted element is the one followed by `end()`. -/
theorem insert_after_count_at_end_returns_pos :
    IsList exHeap 0 [(0, 1), (1, 2), (2, 3)] ∧ IsList exHeap 2 [] ∧
    (insert_after_count 3 exHeap 2 (posAfter 0 [(0, 1), (1, 2), (2, 3)]) 2 9).bind
      (fun r => toList r.1 0 6) = some [1, 2, 3, 9, 9] ∧
    (insert_after_count 3 exHeap 2 (posAfter 0 [(0, 1), (1, 2), (2, 3)]) 2 9).map Prod.snd
      = some (posAfter 0 [(0, 1), (1, 2), (2, 3)]) ∧
    (insert_after_count 3 exHeap 2 (posAfter 0 [(0, 1), (1, 2), (2, 3)]) 2 9).bind
      (fun r => deref r.1 r.2) = some 3 ∧
    ¬ ((insert_after_count 3 exHeap 2 (posAfter 0 [(0, 1), (1, 2), (2, 3)]) 2 9).bind
      (fun r => next r.1 r.2) = some end_) ∧
    (insert_after_range 3 exHeap 2 (posAfter 0 [(0, 1), (1, 2), (2, 3)]) [8, 9]).bind
      (fun r => toList r.1 0 6) = some [1, 2, 3, 8, 9] ∧
    (insert_after_range 3 exHeap 2 (posAfter 0 [(0, 1), (1, 2), (2, 3)]) [8, 9]).bind
      (fun r => deref r.1 r.2) = some 3 := by
  decide

/-- C18: for two distinct lists, `a` holding `preA ++ tailA` and `b` holding `cellsB` (no
node in common), with `first` the position of the last cell of `preA` and `pos` the last
position of `b` (its successor is `end()`), the range `splice_after(pos, other, first,
last)` succeeds for every `last` and any fuel, leaves `a` holding `preA` and `b` holding
`cellsB ++ tailA`, and returns `pos`. -/
theorem splice_after_range_at_end (s : Heap T) (a b : Nat) (preA tailA cellsB : List (Nat × T))
    (last : iterator) (fuel : Nat)
    (hA : IsList s a (preA ++ tailA)) (hB : IsList s b cellsB) (hab : a ≠ b)
    (hd : ∀ x ∈ preA ++ tailA, ∀ y ∈ cellsB, x.1 ≠ y.1) :
    next s (posAfter b cellsB) = some end_ ∧
    ∃ s2, splice_after_range fuel s (posAfter b cellsB) (posAfter a preA) last
        = some (s2, posAfter b cellsB) ∧
      IsList s2 a preA ∧ IsList s2 b (cellsB ++ tailA) ∧
      toList s2 a (preA.length + 1) = some (preA.map Prod.snd) ∧
      toList s2 b ((cellsB ++ tailA).length + 1)
        = some (cellsB.map Prod.snd ++ tailA.map Prod.snd) := by
  have hB2 : IsList s b (cellsB ++ []) := by simpa using hB
  have hn : next s (posAfter b cellsB) = some end_ := next_posAfter s b cellsB [] hB2
  obtain ⟨s2, e1, e2, e3, -⟩ := splice_after_end_isList s a b preA tailA cellsB hA hB hab hd
  refine ⟨hn, s2, ?_, e2, e3, toList_of_isList s2 a _ _ e2 (by simp), ?_⟩
  · simp only [splice_after_range, hn, if_true, e1]
    rfl
  · rw [toList_of_isList s2 b _ _ e3 (by simp)]
    simp

theorem splice_after_range_at_end_witness :
    IsList exHeap 0 ([(0, 1)] ++ [(1, 2), (2, 3)]) ∧ IsList exHeap 1 [(3, 4)] ∧
    (0 : Nat) ≠ 1 ∧
    (∀ x ∈ [(0, 1)] ++ [(1, 2), (2, 3)], ∀ y ∈ ([(3, 4)] : List (Nat × Nat)), x.1 ≠ y.1) ∧
    next exHeap (posAfter 1 [(3, 4)]) = some end_ ∧
    ∃ s2, splice_after_range 0 exHeap (posAfter 1 [(3, 4)]) (posAfter 0 [(0, 1)])
        (posOf [(2, 3)]) = some (s2, posAfter 1 [(3, 4)]) ∧
      IsList s2 0 [(0, 1)] ∧ IsList s2 1 ([(3, 4)] ++ [(1, 2), (2, 3)]) ∧
      toList s2 0 (([(0, 1)] : List (Nat × Nat)).length + 1)
        = some (([(0, 1)] : List (Nat × Nat)).map Prod.snd) ∧
      toList s2 1 (([(3, 4)] ++ [(1, 2), (2, 3)] : List (Nat × Nat)).length + 1)
        = some (([(3, 4)] : List (Nat × Nat)).map Prod.snd
            ++ ([(1, 2), (2, 3)] : List (Nat × Nat)).map Prod.snd) :=
  ⟨by decide, by decide, by decide, by decide,
    splice_after_range_at_end exHeap 0 1 [(0, 1)] [(1, 2), (2, 3)] [(3, 4)] (posOf [(2, 3)]) 0
      (by decide) (by decide) (by decide) (by decide)⟩

/-- C19, the code at a failing input: list `0` holds `{1, 2, 3}` in the nodes `0, 1, 2`;
`it` is `before_begin()` and `pos` is the position of the node after it, the node of `1`.
After `splice_after(pos, *this, it)` the list holds `{2, 3}` only; the node of `1` is
still allocated, its link points to itself, and it is not reachable from the sentinel.
(With `pos` equal to `it` the same call leaves the list `{1, 2, 3}`.) -/
theorem splice_after_self_makes_cycle :
    IsList exHeap 0 [(0, 1), (1, 2), (2, 3)] ∧
    next exHeap (before_begin 0) = some (posOf [(0, 1), (1, 2), (2, 3)]) ∧
    (splice_after exHeap (posOf [(0, 1), (1, 2), (2, 3)]) (before_begin 0)).bind
      (fun r => toList r.1 0 4) = some [2, 3] ∧
    (splice_after exHeap (posOf [(0, 1), (1, 2), (2, 3)]) (before_begin 0)).bind
      (fun r => getNext r.1 (.node 0)) = some (some 0) ∧
    (splice_after exHeap (posOf [(0, 1), (1, 2), (2, 3)]) (before_begin 0)).bind
      (fun r => value r.1 0) = some 1 ∧
    (splice_after exHeap (posOf [(0, 1), (1, 2), (2, 3)]) (before_begin 0)).bind
      (fun r => getNext r.1 (.head 0)) = some (some 1) ∧
    (splice_after exHeap (before_begin 0) (before_begin 0)).bind
      (fun r => toList r.1 0 4) = some [1, 2, 3] := by
  decide

/-- C20: let `P` be a position whose node is alive (`P->next` can be read) and let the
allocator hand out an unused address.  `emplace_after(P, v)` changes the link of `P` only
(it now points to the new node, which holds `v` and points to the old successor): every
other list head and every node other than `P` and the new one is unchanged, `P` keeps its
value, and every position designates the same element as before.  When `P` has a successor
node `N`, `erase_after(P)` changes the link of `P` only (it now holds what `N` pointed to)
and frees `N`: every other head and node is unchanged, `P` keeps its value, every position
referencing a node other than `N` designates the same element as before, and a position
referencing `N` designates nothing. -/
theorem emplace_erase_frame (s : Heap T) (P : Loc) (m : Option Nat) (v : T)
    (hP : getNext s P = some m) (hfresh : s.nodes s.brk = none) :
    (∃ s2, emplace_after s ⟨some P⟩ v = some (s2, ⟨some (.node s.brk)⟩) ∧
      getNext s2 P = some (some s.brk) ∧ s2.nodes s.brk = some ⟨m, v⟩ ∧
      (∀ l, Loc.head l ≠ P → s2.heads l = s.heads l) ∧
      (∀ k, k ≠ s.brk → Loc.node k ≠ P → s2.nodes k = s.nodes k) ∧
      (∀ k, k ≠ s.brk → value s2 k = value s k) ∧
      (∀ it, it ≠ ⟨some (.node s.brk)⟩ → deref s2 it = deref s it)) ∧
    (∀ N r, m = some N → getNext s (.node N) = some r → P ≠ .node N →
      ∃ s3, erase_after s ⟨some P⟩ = some (s3, ⟨r.map Loc.node⟩) ∧
        getNext s3 P = some r ∧ s3.nodes N = none ∧
        (∀ l, Loc.head l ≠ P → s3.heads l = s.heads l) ∧
        (∀ k, k ≠ N → Loc.node k ≠ P → s3.nodes k = s.nodes k) ∧
        (∀ k, k ≠ N → value s3 k = value s k) ∧
        (∀ it, it ≠ ⟨some (.node N)⟩ → deref s3 it = deref s it) ∧
        deref s3 ⟨some (.node N)⟩ = none) := by
  have hne : P ≠ .node s.brk := by
    rintro rfl
    simp [getNext, hfresh] at hP
  constructor
  · obtain ⟨s2, e1, -, e3, e4, e5, e6, e7⟩ := emplace_after_effect s P m v hP hne
    refine ⟨s2, e1, e3, ?_, ?_, ?_, e7, ?_⟩
    · simp only [getNext, value] at e4 e5
      cases h2 : s2.nodes s.brk with
      | none => simp [h2] at e4
      | some c =>
        obtain ⟨cn, cv⟩ := c
        simp only [h2, Option.map_some', Option.some.injEq] at e4 e5
        simp [e4, e5]
    · intro l hl
      exact heads_eq_of s s2 l (e6 _ hl (by simp))
    · intro k hk hkP
      exact nodes_eq_of s s2 k (e6 _ hkP (by simpa using hk)) (e7 k hk)
    · intro it hit
      refine deref_eq_of s s2 it (fun k hk => e7 k ?_)
      rintro rfl
      exact hit hk
  · rintro N r rfl hN hPN
    obtain ⟨s3, e1, -, e3, e4, e5, e6, e7⟩ := erase_after_effect s P N r hP hN hPN
    refine ⟨s3, e1, e3, ?_, ?_, ?_, e7, ?_, ?_⟩
    · simpa [value] using e5
    · intro l hl
      exact heads_eq_of s s3 l (e6 _ hl (by simp))
    · intro k hk hkP
      exact nodes_eq_of s s3 k (e6 _ hkP (by simpa using hk)) (e7 k hk)
    · intro it hit
      refine deref_eq_of s s3 it (fun k hk => e7 k ?_)
      rintro rfl
      exact hit hk
    · simpa [deref] using e5

theorem emplace_erase_frame_witness :
    getNext exHeap (.node 0) = some (some 1) ∧ exHeap.nodes exHeap.brk = none ∧
    (∃ s2, emplace_after exHeap ⟨some (.node 0)⟩ 99 = some (s2, ⟨some (.node exHeap.brk)⟩) ∧
      getNext s2 (.node 0) = some (some exHeap.brk) ∧
      s2.nodes exHeap.brk = some ⟨some 1, 99⟩ ∧
      (∀ l, Loc.head l ≠ .node 0 → s2.heads l = exHeap.heads l) ∧
      (∀ k, k ≠ exHeap.brk → Loc.node k ≠ .node 0 → s2.nodes k = exHeap.nodes k) ∧
      (∀ k, k ≠ exHeap.brk → value s2 k = value exHeap k) ∧
      (∀ it, it ≠ ⟨some (.node exHeap.brk)⟩ → deref s2 it = deref exHeap it)) ∧
    (∀ N r, some 1 = some N → getNext exHeap (.node N) = some r → Loc.node 0 ≠ .node N →
      ∃ s3, erase_after exHeap ⟨some (.node 0)⟩ = some (s3, ⟨r.map Loc.node⟩) ∧
        getNext s3 (.node 0) = some r ∧ s3.nodes N = none ∧
        (∀ l, Loc.head l ≠ .node 0 → s3.heads l = exHeap.heads l) ∧
        (∀ k, k ≠ N → Loc.node k ≠ .node 0 → s3.nodes k = exHeap.nodes k) ∧
        (∀ k, k ≠ N → value s3 k = value exHeap k) ∧
        (∀ it, it ≠ ⟨some (.node N)⟩ → deref s3 it = deref exHeap it) ∧
        deref s3 ⟨some (.node N)⟩ = none) :=
  ⟨by decide, rfl, emplace_erase_frame exHeap (.node 0) (some 1) 99 (by decide) rfl⟩

end forward_list
